import Mathlib

/-!
# wonderivan/lrucache: a shallow embedding of the cache engine

The development follows `src/util.go` (the size estimator and `MemoryItem`) and
`src/lrucache.go` (the cache operations and the janitor loop bodies).

Modelling conventions.

* Go `int`, `int64` and `time.Duration` values are unbounded integers (`Int`); the sizes
  and clock differences handled here stay far inside the 64 bit range.
* `time.Now().Unix()` is an explicit argument `now` of every operation that reads the
  clock; one call of an operation sees one clock reading.
* Pointers are addresses (`Nat`).  The memory holding the `*MemoryItem` carried by each
  `*list.Element` is the total store `LruCache.mem`; `valueList` lists the addresses of
  the linked elements from front to back, and `keyIndex` is the Go map from keys to
  element addresses, kept as an association list.
* A payload (`interface{}`) is described by what `reflect` lets `sizeof` observe of it.
* Every cache operation below is one run of the locked section(s) of the corresponding Go
  method with no other goroutine interleaved.  The mutex, the shutdown channel and the
  wait group appear in `Process`, which steps the janitor goroutine and a caller of
  `Destroy` against each other.
-/

namespace LruCacheModel

/-! ## `util.go`: payloads as seen through `reflect`, and the size estimator -/

mutual
/-- A Go value as observed by `sizeof` through `reflect.Value`: its kind, the
`Type().Size()` of its type, and the parts `sizeof` descends into. -/
inductive Value where
  /-- Kind `Invalid`: the zero `reflect.Value`, what `ValueOf(nil)` gives.  It stands for
  the nil `interface{}`. -/
  | invalid : Value
  /-- Kinds `Bool`, `Int` .. `Complex128`, `Func`, `UnsafePointer`; `bits` tells values
  of the same type apart. -/
  | scalar (typeSize : Nat) (bits : Nat) : Value
  /-- Kind `String`. -/
  | str (typeSize : Nat) (s : String) : Value
  /-- Kind `Interface`, with `v.Elem()`. -/
  | iface (typeSize : Nat) (elem : Value) : Value
  /-- Kind `Ptr` with `v.IsNil()`. -/
  | nilptr (typeSize : Nat) : Value
  /-- Kind `Ptr`, not nil, with `v.Pointer()` and `v.Elem()`. -/
  | ptr (typeSize : Nat) (addr : Nat) (elem : Value) : Value
  /-- Kinds `Array` and `Slice`: the `v.Len()` elements, `v.Cap()` and
  `Type().Elem().Size()`. -/
  | seq (typeSize : Nat) (elems : Values) (cap : Nat) (elemSize : Nat) : Value
  /-- Kind `Map`: the keys in `v.MapKeys()` order, each with `v.MapIndex(key)`. -/
  | map (typeSize : Nat) (entries : Entries) : Value
  /-- Kind `Chan`. -/
  | chan (typeSize : Nat) (cap : Nat) (elemSize : Nat) : Value
  /-- Kind `Struct`, with its `v.NumField()` fields. -/
  | struct (fields : Values) : Value
/-- A sequence of values (elements of an array or slice, fields of a struct). -/
inductive Values where
  | nil : Values
  | cons (v : Value) (rest : Values) : Values
/-- The key/value pairs of a Go map. -/
inductive Entries where
  | nil : Entries
  | cons (k : Value) (v : Value) (rest : Entries) : Entries
end

/-- Number of elements, `v.Len()` of an array or slice. -/
def Values.len : Values → Nat
  | .nil => 0
  | .cons _ rest => rest.len + 1

mutual
/-- The function `sizeof(v, mp)` of `util.go`.  `mp` is the map of visited pointers
(`none` is the nil map); the second component is `mp` as the caller sees it after the
call: a map created inside the `Ptr` case is local to that call, while insertions into a
map received from the caller are shared with the caller.  Every kind of `reflect` is
covered by the switch, so the final `panic` is not reached. -/
def sizeof : Value → Option (List Nat) → Int × Option (List Nat)
  | .invalid, mp => (0, mp)
  | .scalar t _, mp => (t, mp)
  | .str t s, mp => (s.utf8ByteSize + t, mp)
  | .iface t e, mp =>
      let r := sizeof e mp
      (r.1 + t, r.2)
  | .nilptr t, mp => (t, mp)
  | .ptr t a e, none => ((sizeof e (some [a])).1 + t, none)
  | .ptr t a e, some m =>
      if a ∈ m then (t, some m)
      else
        let r := sizeof e (some (a :: m))
        (r.1 + t, r.2)
  | .seq t es cap esz, mp =>
      let r := sizeofValues es mp
      (t + r.1 + (if cap > es.len then (((cap - es.len : Nat) * esz : Nat) : Int) else 0), r.2)
  | .map t en, mp =>
      let r := sizeofEntries en mp
      (t + r.1, r.2)
  | .chan t cap esz, mp => (cap * esz + t, mp)
  | .struct fs, mp => sizeofValues fs mp
/-- The loops `Len += sizeof(v.Index(i), mp)` and `Len += sizeof(v.Field(i), mp)`. -/
def sizeofValues : Values → Option (List Nat) → Int × Option (List Nat)
  | .nil, mp => (0, mp)
  | .cons v rest, mp =>
      let a := sizeof v mp
      let b := sizeofValues rest a.2
      (a.1 + b.1, b.2)
/-- The loop `Len += sizeof(key, mp) + sizeof(v.MapIndex(key), mp)`. -/
def sizeofEntries : Entries → Option (List Nat) → Int × Option (List Nat)
  | .nil, mp => (0, mp)
  | .cons k v rest, mp =>
      let a := sizeof k mp
      let b := sizeof v a.2
      let c := sizeofEntries rest b.2
      (a.1 + b.1 + c.1, c.2)
end

/-- The function `Sizeof(i)` of `util.go`: `sizeof(ValueOf(i), nil)`. -/
def Sizeof (i : Value) : Int := (sizeof i none).1

/-- Memory cache item (`util.go`).  `lastAccess` is a Unix time in seconds; `expired` is
a `time.Duration`, which the cache reads back with `int64(itm.expired)`. -/
structure MemoryItem where
  key : String
  val : Value
  lastAccess : Int
  expired : Int

/-- The method `MemoryItem.Size` of `util.go`. -/
def MemoryItem.Size (this : MemoryItem) : Int :=
  (this.key.utf8ByteSize + 16) * 2 + Sizeof this.val + 16 + 32

instance : Inhabited MemoryItem := ⟨⟨"", .invalid, 0, 0⟩⟩

/-! ## `lrucache.go`: constants and state -/

/-- 800 MB. -/
def defaultLowSize : Int := (1 <<< 20) * 800

/-- 1 GB. -/
def defaultHighSize : Int := 1 <<< 30

/-- 1 day, in seconds. -/
def defaultCheckInterval : Int := 24 * 3600

/-- The constant `time.Second`: a `time.Duration` counts nanoseconds. -/
def Second : Int := 1000000000

/-- The default validity period `24 * 3600 * 365 * time.Second`. -/
def defaultExpire : Int := 24 * 3600 * 365 * Second

/-- The cache.  `mem e` is the `*MemoryItem` held in `e.Value` for the element at address
`e`; `valueList` is the `container/list` of linked elements, front first; `keyIndex` is
the map from keys to elements; `chShrinkCache` tells whether the one-slot channel holds a
pending shrink request. -/
structure LruCache where
  name : String
  low : Int
  high : Int
  interval : Int
  curCacheSize : Int
  chShrinkCache : Bool
  mem : Nat → MemoryItem
  valueList : List Nat
  keyIndex : List (String × Nat)

/-! ### `container/list` and Go map primitives -/

/-- The call `l.MoveToBack(e)`: nothing happens unless `e` is an element of `l`. -/
def MoveToBack (l : List Nat) (e : Nat) : List Nat :=
  if e ∈ l then l.erase e ++ [e] else l

/-- The call `l.Remove(e)`: unlinks `e` when it is an element of `l`. -/
def Remove (l : List Nat) (e : Nat) : List Nat := l.erase e

/-- The call `l.Front()`: the first element, or nil. -/
def Front (l : List Nat) : Option Nat := l.head?

/-- An address for the element that `l.PushBack` allocates: one that is not used by any
of the given elements. -/
def newElement : List Nat → Nat
  | [] => 0
  | a :: l => max (a + 1) (newElement l)

/-- The map read `m[key]`. -/
def mapGet (m : List (String × Nat)) (key : String) : Option Nat := m.lookup key

/-- The statement `delete(m, key)`. -/
def mapDelete (m : List (String × Nat)) (key : String) : List (String × Nat) :=
  m.filter (fun p => p.1 ≠ key)

/-- The map write `m[key] = e`. -/
def mapSet (m : List (String × Nat)) (key : String) (e : Nat) : List (String × Nat) :=
  mapDelete m key ++ [(key, e)]

/-- The snapshot loop `for key := range m { keyArr = append(keyArr, key) }`. -/
def mapKeys (m : List (String × Nat)) : List String := m.map Prod.fst

/-- A decoded JSON value as `setConfig` inspects it. -/
inductive JsonValue where
  /-- A JSON string. -/
  | str (s : String) : JsonValue
  /-- A JSON number, decoded as `float64`; `toInt` is the result of the conversion
  `int(value)`. -/
  | num (toInt : Int) : JsonValue
  /-- Anything else (bool, null, array, object). -/
  | other : JsonValue

/-- The configuration text handed to `setConfig`, by what `json.Unmarshal` makes of
it. -/
inductive Config where
  /-- The empty string (also when no configuration is given). -/
  | empty : Config
  /-- The text for which `json.Unmarshal` returns an error. -/
  | malformed : Config
  /-- The decoded object `cf`. -/
  | object (cf : List (String × JsonValue)) : Config

namespace LruCache

/-! ### Foreground operations -/

/-- The method `Get` of `lrucache.go`. -/
def Get (this : LruCache) (key : String) (now : Int) : Value × LruCache :=
  match mapGet this.keyIndex key with
  | some e =>
      let itm := this.mem e
      if now - itm.lastAccess > itm.expired then (.invalid, this)
      else (itm.val, { this with valueList := MoveToBack this.valueList e })
  | none => (.invalid, this)

/-- One iteration of the loop of `GetMulti`: the value written to `rtl[i]` and the cache
after it. -/
def GetMultiStep (this : LruCache) (key : String) (now : Int) : Value × LruCache :=
  match mapGet this.keyIndex key with
  | some e =>
      let itm := this.mem e
      if now - itm.lastAccess > itm.expired then
        (itm.val, { this with valueList := MoveToBack this.valueList e })
      else (.invalid, this)
  | none => (.invalid, this)

/-- The method `GetMulti` of `lrucache.go`. -/
def GetMulti (this : LruCache) : List String → Int → List Value × LruCache
  | [], _ => ([], this)
  | key :: keys, now =>
      let r := GetMultiStep this key now
      let rest := GetMulti r.2 keys now
      (r.1 :: rest.1, rest.2)

/-- The method `GetEx` of `lrucache.go`. -/
def GetEx (this : LruCache) (key : String) (now : Int) : (Value × Bool) × LruCache :=
  match mapGet this.keyIndex key with
  | some e =>
      let itm := this.mem e
      if now - itm.lastAccess > itm.expired then ((.invalid, false), this)
      else ((itm.val, true), { this with valueList := MoveToBack this.valueList e })
  | none => ((.invalid, false), this)

/-- The method `Put` of `lrucache.go`.  The send on `chShrinkCache` is the flag set at
the end. -/
def Put (this : LruCache) (key : String) (val : Value) (expired : Int) (now : Int) :
    LruCache :=
  let expired := if expired < 0 then defaultExpire else expired
  let this : LruCache :=
    match mapGet this.keyIndex key with
    | some e =>
        let valueList := MoveToBack this.valueList e
        let itm := this.mem e
        let size := this.curCacheSize - itm.Size
        let itm := { itm with val := val, expired := expired, lastAccess := now }
        { this with
          valueList := valueList
          mem := Function.update this.mem e itm
          curCacheSize := size + itm.Size }
    | none =>
        let itm : MemoryItem := ⟨key, val, now, expired⟩
        let e := newElement (this.valueList ++ this.keyIndex.map Prod.snd)
        { this with
          curCacheSize := this.curCacheSize + itm.Size
          mem := Function.update this.mem e itm
          valueList := this.valueList ++ [e]
          keyIndex := mapSet this.keyIndex key e }
  if this.curCacheSize ≥ this.high then { this with chShrinkCache := true } else this

/-- The method `Delete` of `lrucache.go`; the first component is the returned error
(`none` is the nil error). -/
def Delete (this : LruCache) (key : String) : Option String × LruCache :=
  match mapGet this.keyIndex key with
  | some e =>
      (none, { this with
        curCacheSize := this.curCacheSize - (this.mem e).Size
        keyIndex := mapDelete this.keyIndex key
        valueList := Remove this.valueList e })
  | none => (some "key not exist", this)

/-- The method `DelayDelete` of `lrucache.go`. -/
def DelayDelete (this : LruCache) (key : String) (delay : Int) (now : Int) :
    Option String × LruCache :=
  match mapGet this.keyIndex key with
  | some e =>
      let itm := this.mem e
      if now - itm.lastAccess ≤ itm.expired then
        (none, { this with
          mem := Function.update this.mem e { itm with expired := delay, lastAccess := now } })
      else (none, this)
  | none => (some "key not exist", this)

/-- The method `IsExist` of `lrucache.go`; the cache is returned as the method leaves
it. -/
def IsExist (this : LruCache) (key : String) (now : Int) : Bool × LruCache :=
  match mapGet this.keyIndex key with
  | some e =>
      let itm := this.mem e
      (decide (now - itm.lastAccess ≤ itm.expired), this)
  | none => (false, this)

/-- The method `ClearAll` of `lrucache.go`. -/
def ClearAll (this : LruCache) : LruCache :=
  { this with curCacheSize := 0, valueList := [], keyIndex := [] }

/-- The test `strings.HasPrefix(key, pre)`. -/
def HasPrefix (key pre : String) : Bool := pre.data.isPrefixOf key.data

/-- One iteration of the removal loop of `ClearPrefixKeys`. -/
def ClearPrefixStep (pre : String) (this : LruCache) (key : String) : LruCache :=
  if HasPrefix key pre then
    match mapGet this.keyIndex key with
    | some e =>
        { this with
          curCacheSize := this.curCacheSize - (this.mem e).Size
          keyIndex := mapDelete this.keyIndex key
          valueList := Remove this.valueList e }
    | none => this
  else this

/-- The method `ClearPrefixKeys` of `lrucache.go`: snapshot of the keys, then the removal
loop over the snapshot. -/
def ClearPrefixKeys (this : LruCache) (pre : String) : LruCache :=
  (mapKeys this.keyIndex).foldl (ClearPrefixStep pre) this

/-! ### Construction -/

/-- The method `setConfig` of `lrucache.go`; `none` is the panic. -/
def setConfig (this : LruCache) : Config → Option LruCache
  | .empty => some this
  | .malformed => some this
  | .object cf =>
      let this : LruCache := match cf.lookup "name" with
        | some (.str name) => { this with name := name }
        | _ => this
      let this : LruCache := match cf.lookup "low" with
        | some (.num low) => { this with low := low }
        | _ => this
      let this : LruCache := match cf.lookup "high" with
        | some (.num high) => { this with high := high }
        | _ => this
      if this.high < this.low then none
      else
        some (match cf.lookup "interval" with
          | some (.num interval) => { this with interval := interval }
          | _ => this)

/-- The state built by `NewLruCache`; `none` when `setConfig` panics. -/
def NewLruCache (name : String) (config : Config) : Option LruCache :=
  setConfig
    { name := name
      low := defaultLowSize
      high := defaultHighSize
      interval := defaultCheckInterval
      curCacheSize := 0
      chShrinkCache := false
      mem := fun _ => default
      valueList := []
      keyIndex := [] } config

/-! ### The janitor (`shrinkCache`) -/

/-- How a run of a janitor loop ended. -/
inductive Status where
  /-- The loop reached its `break`. -/
  | done : Status
  /-- The run panicked: `Remove(Front())` on an empty list dereferences nil. -/
  | panicked : Status
  /-- The iteration budget of the model ran out. -/
  | outOfFuel : Status
  deriving DecidableEq, Repr

/-- Result of processing one shrink signal: how the loop ended, the cache it left, and
the elements it removed, in the order of removal (`shrinkNum` is their number). -/
structure ShrinkRun where
  status : Status
  cache : LruCache
  evicted : List Nat

/-- The inner `for` loop of the shrink branch of `shrinkCache`, run for at most `fuel`
iterations. -/
def shrinkLoop : Nat → LruCache → List Nat → ShrinkRun
  | 0, this, evicted => ⟨.outOfFuel, this, evicted⟩
  | fuel + 1, this, evicted =>
      if this.curCacheSize > this.low then
        match Front this.valueList with
        | none => ⟨.panicked, this, evicted⟩
        | some e =>
            let itm := this.mem e
            shrinkLoop fuel
              { this with
                valueList := Remove this.valueList e
                curCacheSize := this.curCacheSize - itm.Size
                keyIndex := mapDelete this.keyIndex itm.key }
              (evicted ++ [e])
      else ⟨.done, this, evicted⟩

/-- The shrink branch of `shrinkCache`: the signal is taken from `chShrinkCache`, then
the loop runs.  One iteration more than there are linked elements is always enough. -/
def shrink (this : LruCache) : ShrinkRun :=
  shrinkLoop (this.valueList.length + 1) { this with chShrinkCache := false } []

/-- One eviction of the shrink loop, as a step of its own: `none` when the loop would
stop (`curCacheSize ≤ low`) or panic (no front element). -/
def shrinkEvict (this : LruCache) : Option LruCache :=
  if this.curCacheSize > this.low then
    match Front this.valueList with
    | none => none
    | some e =>
        let itm := this.mem e
        some { this with
          valueList := Remove this.valueList e
          curCacheSize := this.curCacheSize - itm.Size
          keyIndex := mapDelete this.keyIndex itm.key }
  else none

/-- One iteration of the loop of the timer branch of `shrinkCache`. -/
def sweepStep (now : Int) (this : LruCache) (key : String) : LruCache :=
  match mapGet this.keyIndex key with
  | some e =>
      let itm := this.mem e
      if now - itm.lastAccess > itm.expired then
        { this with
          curCacheSize := this.curCacheSize - itm.Size
          keyIndex := mapDelete this.keyIndex key
          valueList := Remove this.valueList e }
      else this
  | none => this

/-- The timer branch of `shrinkCache`: snapshot of the keys, then the loop over it. -/
def sweep (this : LruCache) (now : Int) : LruCache :=
  (mapKeys this.keyIndex).foldl (sweepStep now) this

end LruCache

end LruCacheModel

/-! ## Invariants, reachable states, sample data -/

namespace LruCacheModel

/-- Invariant I1 on the three components it speaks about: `keyIndex` has no key twice,
`valueList` links no element twice, every indexed element is linked and carries an item
with the key it is indexed under, and every linked element is indexed under the key of
its item. -/
def ConsistentOn (mem : Nat → MemoryItem) (valueList : List Nat)
    (keyIndex : List (String × Nat)) : Prop :=
  (keyIndex.map Prod.fst).Nodup ∧ valueList.Nodup ∧
  (∀ p ∈ keyIndex, p.2 ∈ valueList ∧ (mem p.2).key = p.1) ∧
  (∀ e ∈ valueList, ((mem e).key, e) ∈ keyIndex)

instance (mem : Nat → MemoryItem) (valueList : List Nat) (keyIndex : List (String × Nat)) :
    Decidable (ConsistentOn mem valueList keyIndex) := by
  unfold ConsistentOn
  infer_instance

/-- Sum of `Size()` over the items of the given elements. -/
def sumSize (mem : Nat → MemoryItem) (l : List Nat) : Int :=
  (l.map (fun e => (mem e).Size)).sum

/-- Index and recency order are consistent (invariant I1). -/
def LruCache.Consistent (s : LruCache) : Prop :=
  ConsistentOn s.mem s.valueList s.keyIndex

instance (s : LruCache) : Decidable s.Consistent := by
  unfold LruCache.Consistent
  infer_instance

/-- The items in recency order, least recently used first. -/
def LruCache.entries (s : LruCache) : List MemoryItem := s.valueList.map s.mem

/-- Sum of `Size()` over the entries of the index. -/
def LruCache.indexSize (s : LruCache) : Int := sumSize s.mem (s.keyIndex.map Prod.snd)

end LruCacheModel

namespace LruCacheModel

/-- Invariant I3, stated on the linked elements: the running size is the sum of `Size()`
over the entries of the recency order. -/
def LruCache.SizeExact (s : LruCache) : Prop :=
  s.curCacheSize = sumSize s.mem s.valueList

instance (s : LruCache) : Decidable s.SizeExact := by
  unfold LruCache.SizeExact
  infer_instance

/-- The operations that act on a cache: the public methods, and the single locked
sections of the janitor and of the removal loop of `ClearPrefixKeys`. -/
inductive Op where
  | put (key : String) (val : Value) (expired : Int) (now : Int) : Op
  | get (key : String) (now : Int) : Op
  | getMulti (keys : List String) (now : Int) : Op
  | getEx (key : String) (now : Int) : Op
  | delete (key : String) : Op
  | delayDelete (key : String) (delay : Int) (now : Int) : Op
  | isExist (key : String) (now : Int) : Op
  | clearAll : Op
  | clearPrefixKeys (pre : String) : Op
  | clearPrefixRemove (pre : String) (key : String) : Op
  | shrinkEvict : Op
  | sweepRemove (key : String) (now : Int) : Op

/-- The cache after one operation; `none` when the operation cannot take place (a shrink
eviction with `curCacheSize ≤ low`, or one that panics). -/
def LruCache.step (s : LruCache) : Op → Option LruCache
  | .put key val expired now => some (s.Put key val expired now)
  | .get key now => some (s.Get key now).2
  | .getMulti keys now => some (s.GetMulti keys now).2
  | .getEx key now => some (s.GetEx key now).2
  | .delete key => some (s.Delete key).2
  | .delayDelete key delay now => some (s.DelayDelete key delay now).2
  | .isExist key now => some (s.IsExist key now).2
  | .clearAll => some s.ClearAll
  | .clearPrefixKeys pre => some (s.ClearPrefixKeys pre)
  | .clearPrefixRemove pre key => some (LruCache.ClearPrefixStep pre s key)
  | .shrinkEvict => s.shrinkEvict
  | .sweepRemove key now => some (LruCache.sweepStep now s key)

/-- The states reachable from a newly constructed cache by finitely many operations. -/
inductive Reachable : LruCache → Prop where
  | new (name : String) (config : Config) (s : LruCache)
      (h : LruCache.NewLruCache name config = some s) : Reachable s
  | step (s : LruCache) (op : Op) (s' : LruCache)
      (hs : Reachable s) (h : s.step op = some s') : Reachable s'

/-! ### Sample data, after the tests of `lrucache_test.go` -/

/-- A payload shaped like `&TestType{token}`: a pointer to a struct with one string
field (64 bit sizes). -/
def testValue (addr : Nat) (token : String) : Value :=
  .ptr 8 addr (.struct (.cons (.str 16 token) .nil))

/-- The configuration text of `TestCache1`, decoded. -/
def test1Config : Config := .object [("low", .num 200), ("high", .num 400)]

/-- The cache `NewLruCache("test1", ...)` of `TestCache1`. -/
def test1 : LruCache :=
  { name := "test1", low := 200, high := 400, interval := defaultCheckInterval,
    curCacheSize := 0, chShrinkCache := false, mem := fun _ => default,
    valueList := [], keyIndex := [] }

/-- The cache of `TestCache1` after `Put("test", &TestType{"test"}, 2)` at time 100. -/
def test1Put : LruCache := test1.Put "test" (testValue 1000 "test") 2 100

/-- A cache holding the keys A, B, C written in this order at time 100 with ttl 5. -/
def test1ABC : LruCache :=
  ((test1.Put "A" (testValue 1000 "a") 5 100).Put "B" (testValue 1001 "b") 5 100).Put
    "C" (testValue 1002 "c") 5 100

end LruCacheModel

namespace LruCacheModel

/-- The common form of the loop bodies of `ClearPrefixKeys` and of the timer branch of
`shrinkCache`: when `key` is indexed and its item satisfies `P`, the entry is removed
(size decremented, key deleted from the index, element unlinked). -/
def LruCache.removeWhen (P : MemoryItem → Bool) (this : LruCache) (key : String) :
    LruCache :=
  match mapGet this.keyIndex key with
  | some e =>
      if P (this.mem e) then
        { this with
          curCacheSize := this.curCacheSize - (this.mem e).Size
          keyIndex := mapDelete this.keyIndex key
          valueList := Remove this.valueList e }
      else this
  | none => this

/-- The test `now - itm.lastAccess > int64(itm.expired)` of the read paths and of the
sweep. -/
def MemoryItem.expiredAt (now : Int) (itm : MemoryItem) : Bool :=
  decide (now - itm.lastAccess > itm.expired)

/-- A cache holding the keys a1, a2, b1, written in this order at time 100. -/
def testKeys : LruCache :=
  ((test1.Put "a1" (testValue 1000 "a1") 5 100).Put "a2" (testValue 1001 "a2") 5 100).Put
    "b1" (testValue 1002 "b1") 5 100

/-- A cache holding A (ttl 1), B (ttl 10) and C (ttl 2), written at time 100. -/
def testTtl : LruCache :=
  ((test1.Put "A" (testValue 1000 "a") 1 100).Put "B" (testValue 1001 "b") 10 100).Put
    "C" (testValue 1002 "c") 2 100

end LruCacheModel

namespace LruCacheModel

/-! ### Goroutines: `Destroy` against the janitor

The cache operations above are single locked sections.  Here the mutex, the shutdown
channel and the wait group are part of the state, and the janitor goroutine and a caller
of `Destroy` advance by steps between which the other may run.  A step that cannot be
taken (a `Lock` on a held mutex, a `select` with no ready case, a `Wait` on a wait group
that is not zero) has no result. -/

/-- Where the janitor goroutine (`shrinkCache`) stands: waiting in its `select`, about to
take the mutex for one of its locked sections, or returned. -/
inductive JanitorAt where
  /-- In the `select` of line 287. -/
  | select : JanitorAt
  /-- Shrink branch taken, before the `Lock` of line 290. -/
  | shrinkRead : JanitorAt
  /-- In the shrink loop, before the `Lock` of line 295. -/
  | shrinkIter : JanitorAt
  /-- Timer branch taken, before the `Lock` of line 317. -/
  | sweepSnapshot : JanitorAt
  /-- In the sweep loop with these keys of the snapshot still to visit, before the `Lock`
  of line 329 (or at the end of the loop when none is left). -/
  | sweepIter (keyArr : List String) : JanitorAt
  /-- Returned from `shrinkCache`; the deferred `waitGroup.Done()` has run. -/
  | returned : JanitorAt
  deriving DecidableEq

/-- Where the caller of `Destroy` stands. -/
inductive DestroyAt where
  /-- Not inside `Destroy`. -/
  | outside : DestroyAt
  /-- Inside `Destroy`, holding the mutex, blocked in `waitGroup.Wait()` (line 69). -/
  | waiting : DestroyAt
  /-- Returned from `Destroy`. -/
  | returned : DestroyAt
  deriving DecidableEq

/-- The cache with its synchronisation state.  `chCacheExit` is `none` for the nil
field, `some false` for the open channel and `some true` for the closed one; `waitGroup`
is the counter of the wait group.  The mutex is held exactly while a `Destroy` is blocked
in `Wait`; every other locked section is one step. -/
structure Process where
  cache : LruCache
  chCacheExit : Option Bool
  waitGroup : Nat
  janitor : JanitorAt
  destroy : DestroyAt

/-- What can happen next. -/
inductive Event where
  /-- A foreground goroutine runs one cache operation. -/
  | call (op : Op) : Event
  /-- The janitor, in `select`, receives from `chShrinkCache`. -/
  | recvShrink : Event
  /-- The janitor, in `select`, receives a tick of the timer. -/
  | recvTick : Event
  /-- The janitor, in `select`, receives from the closed `chCacheExit` and returns. -/
  | recvShutdown : Event
  /-- The janitor runs its next locked section, reading the clock as `now`. -/
  | janitorStep (now : Int) : Event
  /-- The caller enters `Destroy`: `Lock`, test of `chCacheExit`, `close`, up to
  `waitGroup.Wait()`; or straight through to the return when the field is nil. -/
  | destroyCall : Event
  /-- The `Wait` of `Destroy` returns: the field is set to nil, `Unlock`, return. -/
  | destroyReturn : Event

/-- The operations a foreground goroutine can call (the other members of `Op` are locked
sections of the janitor). -/
def Op.foreground : Op → Bool
  | .shrinkEvict => false
  | .sweepRemove _ _ => false
  | _ => true

/-- The process right after `NewLruCache` (lines 46-49): both channels made, wait group
at 1, janitor started. -/
def Process.start (cache : LruCache) : Process :=
  { cache := cache, chCacheExit := some false, waitGroup := 1,
    janitor := .select, destroy := .outside }

/-- The next locked section of the janitor, which needs the mutex. -/
def Process.janitorLocked (p : Process) (now : Int) : Option Process :=
  match p.janitor with
  | .shrinkRead => some { p with janitor := .shrinkIter }
  | .shrinkIter =>
      if p.cache.curCacheSize > p.cache.low then
        (p.cache.shrinkEvict).map (fun c => { p with cache := c })
      else some { p with janitor := .select }
  | .sweepSnapshot => some { p with janitor := .sweepIter (mapKeys p.cache.keyIndex) }
  | .sweepIter (key :: keyArr) =>
      some { p with cache := LruCache.sweepStep now p.cache key, janitor := .sweepIter keyArr }
  | _ => none

/-- One step of the process; `none` when the event cannot take place. -/
def Process.step (p : Process) : Event → Option Process
  | .call op =>
      if p.destroy = .waiting ∨ op.foreground = false then none
      else (p.cache.step op).map (fun c => { p with cache := c })
  | .recvShrink =>
      if p.janitor = .select ∧ p.cache.chShrinkCache = true then
        some { p with cache := { p.cache with chShrinkCache := false }, janitor := .shrinkRead }
      else none
  | .recvTick =>
      if p.janitor = .select then some { p with janitor := .sweepSnapshot } else none
  | .recvShutdown =>
      if p.janitor = .select ∧ p.chCacheExit = some true then
        some { p with janitor := .returned, waitGroup := p.waitGroup - 1 }
      else none
  | .janitorStep now =>
      if p.janitor = .sweepIter [] then some { p with janitor := .select }
      else if p.destroy = .waiting then none
      else p.janitorLocked now
  | .destroyCall =>
      if p.destroy = .waiting then none
      else
        match p.chCacheExit with
        | none => some { p with destroy := .returned }
        | some false => some { p with chCacheExit := some true, destroy := .waiting }
        | some true => none
  | .destroyReturn =>
      if p.destroy = .waiting ∧ p.waitGroup = 0 then
        some { p with chCacheExit := none, destroy := .returned }
      else none

/-- The process after a sequence of events, when each of them can take place. -/
def Process.run (p : Process) : List Event → Option Process
  | [] => some p
  | ev :: evs => (p.step ev).bind (fun q => q.run evs)

/-- The cache of `TestCache1` filled to its high watermark: four `Put`s of 107 bytes
each reach 428 bytes with `high` at 400, so the last one raises the shrink signal. -/
def test1Full : LruCache :=
  (((test1.Put "A" (testValue 1000 "a") 5 100).Put "B" (testValue 1001 "b") 5 100).Put
    "C" (testValue 1002 "c") 5 100).Put "D" (testValue 1003 "d") 5 100

end LruCacheModel

/-! ## Lemmas on the map and list primitives -/

namespace LruCacheModel

theorem mapGet_nil (k : String) : mapGet [] k = none := rfl

theorem mapGet_cons (p : String × Nat) (m : List (String × Nat)) (k : String) :
    mapGet (p :: m) k = if k = p.1 then some p.2 else mapGet m k := by
  obtain ⟨a, b⟩ := p
  by_cases h : k = a
  · subst h; simp [mapGet, List.lookup]
  · have : (k == a) = false := by simpa using h
    simp [mapGet, List.lookup, this, h]

theorem mem_of_mapGet {m : List (String × Nat)} {k : String} {e : Nat}
    (h : mapGet m k = some e) : (k, e) ∈ m := by
  induction m with
  | nil => simp [mapGet_nil] at h
  | cons p m ih =>
    rw [mapGet_cons] at h
    split at h
    · rename_i hk
      cases h
      simp [hk]
    · exact List.mem_cons_of_mem _ (ih h)

theorem mapGet_eq_none_iff {m : List (String × Nat)} {k : String} :
    mapGet m k = none ↔ ∀ p ∈ m, p.1 ≠ k := by
  induction m with
  | nil => simp [mapGet_nil]
  | cons p m ih =>
    rw [mapGet_cons]
    by_cases hk : k = p.1
    · simp [hk]
    · simp [hk, ih]
      intro _
      exact fun h => hk h.symm

theorem mapGet_of_mem {m : List (String × Nat)} {k : String} {e : Nat}
    (hn : (m.map Prod.fst).Nodup) (h : (k, e) ∈ m) : mapGet m k = some e := by
  induction m with
  | nil => simp at h
  | cons p m ih =>
    rw [mapGet_cons]
    rw [List.map_cons, List.nodup_cons] at hn
    rcases List.mem_cons.1 h with h | h
    · subst h; simp
    · have : k ≠ p.1 := by
        intro hk
        apply hn.1
        rw [← hk]
        exact List.mem_map_of_mem Prod.fst h
      simp [this, ih hn.2 h]

theorem mapDelete_eq_self {m : List (String × Nat)} {k : String}
    (h : mapGet m k = none) : mapDelete m k = m := by
  rw [mapGet_eq_none_iff] at h
  unfold mapDelete
  rw [List.filter_eq_self]
  intro p hp
  simpa using h p hp

theorem mem_mapDelete {m : List (String × Nat)} {k : String} {p : String × Nat} :
    p ∈ mapDelete m k ↔ p ∈ m ∧ p.1 ≠ k := by
  simp [mapDelete]

theorem mapGet_mapDelete_self (m : List (String × Nat)) (k : String) :
    mapGet (mapDelete m k) k = none := by
  rw [mapGet_eq_none_iff]
  intro p hp
  exact (mem_mapDelete.1 hp).2

theorem mapDelete_cons (p : String × Nat) (m : List (String × Nat)) (k : String) :
    mapDelete (p :: m) k = if p.1 = k then mapDelete m k else p :: mapDelete m k := by
  unfold mapDelete
  by_cases hp : p.1 = k <;> simp [List.filter_cons, hp]

theorem mapGet_mapDelete_of_ne (m : List (String × Nat)) {k k' : String} (h : k' ≠ k) :
    mapGet (mapDelete m k) k' = mapGet m k' := by
  induction m with
  | nil => rfl
  | cons p m ih =>
    rw [mapDelete_cons]
    by_cases hp : p.1 = k
    · have hk : k' ≠ p.1 := by rw [hp]; exact h
      rw [if_pos hp, mapGet_cons, if_neg hk, ih]
    · rw [if_neg hp, mapGet_cons, mapGet_cons, ih]

theorem mapGet_append (m m' : List (String × Nat)) (k : String) :
    mapGet (m ++ m') k = (mapGet m k).orElse (fun _ => mapGet m' k) := by
  induction m with
  | nil => simp [mapGet_nil]
  | cons p m ih =>
    rw [List.cons_append, mapGet_cons, mapGet_cons]
    split <;> simp [ih]

theorem mapGet_mapSet_self (m : List (String × Nat)) (k : String) (e : Nat) :
    mapGet (mapSet m k e) k = some e := by
  simp [mapSet, mapGet_append, mapGet_mapDelete_self, mapGet_cons, mapGet_nil]

theorem mapGet_mapSet_of_ne (m : List (String × Nat)) {k k' : String} (e : Nat) (h : k' ≠ k) :
    mapGet (mapSet m k e) k' = mapGet m k' := by
  simp [mapSet, mapGet_append, mapGet_mapDelete_of_ne m h, mapGet_cons, mapGet_nil, h]

theorem lt_newElement {l : List Nat} {a : Nat} (h : a ∈ l) : a < newElement l := by
  induction l with
  | nil => simp at h
  | cons b l ih =>
    rcases List.mem_cons.1 h with h | h
    · subst h; simp [newElement]
    · have := ih h
      simp [newElement]
      omega

theorem newElement_not_mem (l : List Nat) : newElement l ∉ l :=
  fun h => Nat.lt_irrefl _ (lt_newElement h)

end LruCacheModel

namespace LruCacheModel

theorem moveToBack_perm (l : List Nat) (e : Nat) : (MoveToBack l e).Perm l := by
  unfold MoveToBack
  split
  · rename_i h
    exact (List.perm_append_comm).trans (List.perm_cons_erase h).symm
  · exact List.Perm.refl _

theorem consistentOn_perm {mem : Nat → MemoryItem} {l l' : List Nat}
    {m : List (String × Nat)} (hp : l'.Perm l) (h : ConsistentOn mem l m) :
    ConsistentOn mem l' m := by
  obtain ⟨h1, h2, h3, h4⟩ := h
  refine ⟨h1, hp.nodup_iff.2 h2, ?_, ?_⟩
  · intro p hpm
    exact ⟨hp.mem_iff.2 (h3 p hpm).1, (h3 p hpm).2⟩
  · intro e he
    exact h4 e (hp.mem_iff.1 he)

theorem update_key {mem : Nat → MemoryItem} {e : Nat} {itm : MemoryItem}
    (hk : itm.key = (mem e).key) (a : Nat) :
    (Function.update mem e itm a).key = (mem a).key := by
  by_cases h : a = e
  · subst h; simp [hk]
  · simp [Function.update_noteq h]

theorem consistentOn_update {mem : Nat → MemoryItem} {l : List Nat}
    {m : List (String × Nat)} {e : Nat} {itm : MemoryItem}
    (hk : itm.key = (mem e).key) (h : ConsistentOn mem l m) :
    ConsistentOn (Function.update mem e itm) l m := by
  obtain ⟨h1, h2, h3, h4⟩ := h
  refine ⟨h1, h2, ?_, ?_⟩
  · intro p hpm
    rw [update_key hk]
    exact h3 p hpm
  · intro a ha
    rw [update_key hk]
    exact h4 a ha

theorem consistentOn_insert {mem : Nat → MemoryItem} {l : List Nat}
    {m : List (String × Nat)} {k : String} {e : Nat} {itm : MemoryItem}
    (hk : itm.key = k) (hm : mapGet m k = none) (he : e ∉ l) (h : ConsistentOn mem l m) :
    ConsistentOn (Function.update mem e itm) (l ++ [e]) (mapSet m k e) := by
  obtain ⟨h1, h2, h3, h4⟩ := h
  have hkm : ∀ p ∈ m, p.1 ≠ k := mapGet_eq_none_iff.1 hm
  unfold mapSet
  rw [mapDelete_eq_self hm]
  refine ⟨?_, ?_, ?_, ?_⟩
  · rw [List.map_append, List.nodup_append]
    refine ⟨h1, by simp, ?_⟩
    intro a ha hb
    simp only [List.map_cons, List.map_nil, List.mem_singleton] at hb
    obtain ⟨p, hp, rfl⟩ := List.mem_map.1 ha
    exact hkm p hp hb
  · rw [List.nodup_append]
    refine ⟨h2, by simp, ?_⟩
    intro a ha hb
    simp only [List.mem_singleton] at hb
    exact he (hb ▸ ha)
  · intro p hp
    rcases List.mem_append.1 hp with hp | hp
    · have hne : p.2 ≠ e := fun hpe => he (hpe ▸ (h3 p hp).1)
      rw [Function.update_noteq hne]
      exact ⟨List.mem_append_left _ (h3 p hp).1, (h3 p hp).2⟩
    · simp only [List.mem_singleton] at hp
      subst hp
      simp [hk]
  · intro a ha
    rcases List.mem_append.1 ha with ha | ha
    · have hne : a ≠ e := fun hae => he (hae ▸ ha)
      rw [Function.update_noteq hne]
      exact List.mem_append_left _ (h4 a ha)
    · simp only [List.mem_singleton] at ha
      subst ha
      simp [hk]

theorem consistentOn_remove {mem : Nat → MemoryItem} {l : List Nat}
    {m : List (String × Nat)} {k : String} {e : Nat}
    (hm : (k, e) ∈ m) (h : ConsistentOn mem l m) :
    ConsistentOn mem (Remove l e) (mapDelete m k) := by
  obtain ⟨h1, h2, h3, h4⟩ := h
  unfold Remove
  refine ⟨?_, h2.erase e, ?_, ?_⟩
  · exact h1.sublist ((List.filter_sublist m).map Prod.fst)
  · intro p hp
    obtain ⟨hpm, hpk⟩ := mem_mapDelete.1 hp
    refine ⟨?_, (h3 p hpm).2⟩
    rw [h2.mem_erase_iff]
    refine ⟨?_, (h3 p hpm).1⟩
    intro hpe
    apply hpk
    rw [← (h3 p hpm).2, hpe]
    exact (h3 _ hm).2
  · intro a ha
    rw [h2.mem_erase_iff] at ha
    rw [mem_mapDelete]
    refine ⟨h4 a ha.2, ?_⟩
    intro hak
    apply ha.1
    have h5 := mapGet_of_mem h1 (h4 a ha.2)
    have h6 := mapGet_of_mem h1 hm
    simp only at hak
    rw [hak, h6] at h5
    exact (Option.some.inj h5).symm

theorem sumSize_perm {mem : Nat → MemoryItem} {l l' : List Nat} (h : l'.Perm l) :
    sumSize mem l' = sumSize mem l :=
  (h.map _).sum_eq

theorem sumSize_append (mem : Nat → MemoryItem) (l l' : List Nat) :
    sumSize mem (l ++ l') = sumSize mem l + sumSize mem l' := by
  simp [sumSize]

theorem sumSize_update_of_not_mem {mem : Nat → MemoryItem} {l : List Nat} {e : Nat}
    (itm : MemoryItem) (h : e ∉ l) :
    sumSize (Function.update mem e itm) l = sumSize mem l := by
  unfold sumSize
  congr 1
  apply List.map_congr_left
  intro a ha
  have : a ≠ e := fun hae => h (hae ▸ ha)
  rw [Function.update_noteq this]

theorem sumSize_remove {mem : Nat → MemoryItem} {l : List Nat} {e : Nat} (h : e ∈ l) :
    sumSize mem (Remove l e) = sumSize mem l - (mem e).Size := by
  have : sumSize mem l = sumSize mem (e :: l.erase e) :=
    sumSize_perm (List.perm_cons_erase h)
  simp only [sumSize, List.map_cons, List.sum_cons] at this
  unfold Remove sumSize
  omega

theorem sumSize_update {mem : Nat → MemoryItem} {l : List Nat} {e : Nat}
    (itm : MemoryItem) (hn : l.Nodup) (h : e ∈ l) :
    sumSize (Function.update mem e itm) l = sumSize mem l - (mem e).Size + itm.Size := by
  have h1 : sumSize mem l = sumSize mem (e :: l.erase e) :=
    sumSize_perm (List.perm_cons_erase h)
  have h2 : sumSize (Function.update mem e itm) l =
      sumSize (Function.update mem e itm) (e :: l.erase e) :=
    sumSize_perm (List.perm_cons_erase h)
  have h3 : e ∉ l.erase e := fun hc => (hn.mem_erase_iff.1 hc).1 rfl
  have h4 : sumSize (Function.update mem e itm) (l.erase e) = sumSize mem (l.erase e) :=
    sumSize_update_of_not_mem itm h3
  simp only [sumSize, List.map_cons, List.sum_cons, Function.update_same] at h1 h2 h4 ⊢
  omega

end LruCacheModel

/-! ## The claims -/

namespace LruCacheModel
open LruCache

theorem moveToBack_eq_filter {l : List Nat} {e : Nat} (hn : l.Nodup) (he : e ∈ l) :
    MoveToBack l e = l.filter (fun a => a ≠ e) ++ [e] := by
  unfold MoveToBack
  rw [if_pos he, hn.erase_eq_filter]
  congr 1
  apply List.filter_congr
  intro a _
  by_cases h : a = e <;> simp [h]

theorem remove_eq_filter {l : List Nat} (e : Nat) (hn : l.Nodup) :
    Remove l e = l.filter (fun a => a ≠ e) := by
  unfold Remove
  rw [hn.erase_eq_filter]
  apply List.filter_congr
  intro a _
  by_cases h : a = e <;> simp [h]

theorem mem_of_consistent {s : LruCache} {k : String} {e : Nat} (hI : s.Consistent)
    (h : mapGet s.keyIndex k = some e) : e ∈ s.valueList ∧ (s.mem e).key = k :=
  hI.2.2.1 _ (mem_of_mapGet h)

theorem key_eq_iff_of_consistent {s : LruCache} {k : String} {e : Nat} (hI : s.Consistent)
    (h : mapGet s.keyIndex k = some e) {a : Nat} (ha : a ∈ s.valueList) :
    (s.mem a).key = k ↔ a = e := by
  constructor
  · intro hk
    have h1 := mapGet_of_mem hI.1 (hI.2.2.2 a ha)
    rw [hk, h] at h1
    exact (Option.some.inj h1).symm
  · intro hae
    rw [hae]
    exact (mem_of_consistent hI h).2

theorem entries_filter_of_consistent {s : LruCache} {k : String} {e : Nat}
    (hI : s.Consistent) (h : mapGet s.keyIndex k = some e) :
    (s.valueList.filter (fun a => a ≠ e)).map s.mem =
      s.entries.filter (fun i => i.key ≠ k) := by
  unfold LruCache.entries
  rw [List.filter_map]
  congr 1
  apply List.filter_congr
  intro a ha
  simp [key_eq_iff_of_consistent hI h ha]

/-- C1. `Get` on a key that is not indexed, or whose entry has `now - lastAccess > ttl`,
returns nil and leaves the cache exactly as it was.  On a key indexed at element `e` with
`now - lastAccess ≤ ttl`, in a cache whose index and recency order are consistent, it
returns the stored value and the cache differs only in the recency order, where `e` has
moved to the back and the other elements keep their order; so the entry of `k` is last,
the other entries keep their relative order, and index and running size are as before. -/
theorem Get_spec (s : LruCache) (k : String) (now : Int) :
    (mapGet s.keyIndex k = none → s.Get k now = (Value.invalid, s)) ∧
    (∀ e, mapGet s.keyIndex k = some e → now - (s.mem e).lastAccess > (s.mem e).expired →
      s.Get k now = (Value.invalid, s)) ∧
    (∀ e, s.Consistent → mapGet s.keyIndex k = some e →
      now - (s.mem e).lastAccess ≤ (s.mem e).expired →
      (s.Get k now).1 = (s.mem e).val ∧
      (s.Get k now).2 =
        { s with valueList := s.valueList.filter (fun a => a ≠ e) ++ [e] } ∧
      (s.Get k now).2.entries = s.entries.filter (fun i => i.key ≠ k) ++ [s.mem e] ∧
      (s.mem e).key = k ∧
      (s.Get k now).2.keyIndex = s.keyIndex ∧
      (s.Get k now).2.curCacheSize = s.curCacheSize) := by
  refine ⟨?_, ?_, ?_⟩
  · intro h
    simp [Get, h]
  · intro e h hexp
    simp [Get, h, hexp]
  · intro e hI h hlive
    have hmem := mem_of_consistent hI h
    have hnot : ¬ now - (s.mem e).lastAccess > (s.mem e).expired := not_lt.2 hlive
    have hst : (s.Get k now).2 =
        { s with valueList := s.valueList.filter (fun a => a ≠ e) ++ [e] } := by
      simp only [Get, h, if_neg hnot]
      rw [moveToBack_eq_filter hI.2.1 hmem.1]
    refine ⟨?_, hst, ?_, hmem.2, ?_, ?_⟩
    · simp only [Get, h, if_neg hnot]
    · rw [hst]
      simp only [LruCache.entries, List.map_append, List.map_cons, List.map_nil]
      rw [entries_filter_of_consistent hI h]
      rfl
    · rw [hst]
    · rw [hst]

/-- Witness for C1: in the cache holding A, B, C (written at time 100 with ttl 5), a
`Get` of A at time 103 returns the stored value and leaves the order B, C, A. -/
theorem Get_spec_witness :
    test1ABC.Consistent ∧ mapGet test1ABC.keyIndex "A" = some 0 ∧
    (103 : Int) - (test1ABC.mem 0).lastAccess ≤ (test1ABC.mem 0).expired ∧
    (test1ABC.Get "A" 103).1 = (test1ABC.mem 0).val ∧
    (test1ABC.Get "A" 103).2 =
      { test1ABC with valueList := test1ABC.valueList.filter (fun a => a ≠ 0) ++ [0] } :=
  ⟨by decide, by decide, by decide,
    ((Get_spec test1ABC "A" 103).2.2 0 (by decide) (by decide) (by decide)).1,
    ((Get_spec test1ABC "A" 103).2.2 0 (by decide) (by decide) (by decide)).2.1⟩

end LruCacheModel

namespace LruCacheModel
open LruCache

theorem Put_fields_of_some {s : LruCache} {k : String} {e : Nat} (v : Value)
    (ttl now : Int) (h : mapGet s.keyIndex k = some e) :
    (s.Put k v ttl now).valueList = MoveToBack s.valueList e ∧
    (s.Put k v ttl now).keyIndex = s.keyIndex ∧
    (s.Put k v ttl now).mem = Function.update s.mem e
      ⟨(s.mem e).key, v, now, if ttl < 0 then defaultExpire else ttl⟩ ∧
    (s.Put k v ttl now).curCacheSize = s.curCacheSize - (s.mem e).Size +
      MemoryItem.Size ⟨(s.mem e).key, v, now, if ttl < 0 then defaultExpire else ttl⟩ ∧
    (s.Put k v ttl now).low = s.low ∧ (s.Put k v ttl now).high = s.high := by
  simp only [Put, h]
  refine ⟨?_, ?_, ?_, ?_, ?_, ?_⟩ <;> split_ifs <;> rfl

theorem Put_fields_of_none {s : LruCache} {k : String} (v : Value)
    (ttl now : Int) (h : mapGet s.keyIndex k = none) :
    (s.Put k v ttl now).valueList =
      s.valueList ++ [newElement (s.valueList ++ s.keyIndex.map Prod.snd)] ∧
    (s.Put k v ttl now).keyIndex =
      s.keyIndex ++ [(k, newElement (s.valueList ++ s.keyIndex.map Prod.snd))] ∧
    (s.Put k v ttl now).mem =
      Function.update s.mem (newElement (s.valueList ++ s.keyIndex.map Prod.snd))
        ⟨k, v, now, if ttl < 0 then defaultExpire else ttl⟩ ∧
    (s.Put k v ttl now).curCacheSize = s.curCacheSize +
      MemoryItem.Size ⟨k, v, now, if ttl < 0 then defaultExpire else ttl⟩ ∧
    (s.Put k v ttl now).low = s.low ∧ (s.Put k v ttl now).high = s.high := by
  simp only [Put, h, mapSet, mapDelete_eq_self h]
  refine ⟨?_, ?_, ?_, ?_, ?_, ?_⟩ <;> split_ifs <;> rfl

theorem newElement_not_mem_left (l l' : List Nat) : newElement (l ++ l') ∉ l :=
  fun h => newElement_not_mem (l ++ l') (List.mem_append_left _ h)

theorem newElement_not_mem_right (l l' : List Nat) : newElement (l ++ l') ∉ l' :=
  fun h => newElement_not_mem (l ++ l') (List.mem_append_right _ h)

/-- C2. `Put(k, v, ttl)` at time `now`, in a cache whose index and recency order are
consistent.  If `k` is indexed at element `e`: the index (hence the key set and the number
of entries) is unchanged, the item of `e` becomes `(k, v, now, ttl)` with the default in
place of a negative `ttl`, `e` moves to the back of the recency order, no other item
changes, the other entries keep their relative order, and the running size changes by the
new `Size()` minus the old one.  If `k` is not indexed: one element `e`, fresh for the
list and the index, is appended to the recency order and indexed under `k`, its item is
`(k, v, now, ttl)`, no other item changes, and the running size grows by its `Size()`. -/
theorem Put_spec (s : LruCache) (k : String) (v : Value) (ttl now : Int)
    (hI : s.Consistent) :
    (∀ e, mapGet s.keyIndex k = some e →
      (s.Put k v ttl now).keyIndex = s.keyIndex ∧
      (s.Put k v ttl now).valueList = s.valueList.filter (fun a => a ≠ e) ++ [e] ∧
      (s.Put k v ttl now).valueList.length = s.valueList.length ∧
      (s.Put k v ttl now).mem e = ⟨k, v, now, if ttl < 0 then defaultExpire else ttl⟩ ∧
      (∀ a, a ≠ e → (s.Put k v ttl now).mem a = s.mem a) ∧
      (s.Put k v ttl now).entries = s.entries.filter (fun i => i.key ≠ k) ++
        [⟨k, v, now, if ttl < 0 then defaultExpire else ttl⟩] ∧
      (s.Put k v ttl now).curCacheSize = s.curCacheSize +
        (MemoryItem.Size ⟨k, v, now, if ttl < 0 then defaultExpire else ttl⟩ -
          (s.mem e).Size)) ∧
    (mapGet s.keyIndex k = none →
      ∃ e, e ∉ s.valueList ∧ e ∉ s.keyIndex.map Prod.snd ∧
      (s.Put k v ttl now).keyIndex = s.keyIndex ++ [(k, e)] ∧
      (s.Put k v ttl now).valueList = s.valueList ++ [e] ∧
      (s.Put k v ttl now).mem e = ⟨k, v, now, if ttl < 0 then defaultExpire else ttl⟩ ∧
      (∀ a, a ≠ e → (s.Put k v ttl now).mem a = s.mem a) ∧
      (s.Put k v ttl now).entries = s.entries ++
        [⟨k, v, now, if ttl < 0 then defaultExpire else ttl⟩] ∧
      (s.Put k v ttl now).curCacheSize = s.curCacheSize +
        (MemoryItem.Size ⟨k, v, now, if ttl < 0 then defaultExpire else ttl⟩ - 0)) := by
  constructor
  · intro e h
    obtain ⟨hv, hk, hm, hc, -, -⟩ := Put_fields_of_some v ttl now h
    have hmem := mem_of_consistent hI h
    rw [hmem.2] at hm hc
    have hvl := moveToBack_eq_filter hI.2.1 hmem.1
    refine ⟨hk, hv.trans hvl, ?_, ?_, ?_, ?_, ?_⟩
    · rw [hv]; exact (moveToBack_perm _ _).length_eq
    · rw [hm]; simp
    · intro a ha
      rw [hm, Function.update_noteq ha]
    · have hf := entries_filter_of_consistent hI h
      unfold LruCache.entries at hf ⊢
      rw [hv, hvl, hm, List.map_append, ← hf]
      congr 1
      · apply List.map_congr_left
        intro a ha
        have hne : a ≠ e := by simpa using (List.mem_filter.1 ha).2
        rw [Function.update_noteq hne]
      · simp
    · rw [hc]; ring
  · intro h
    obtain ⟨hv, hk, hm, hc, -, -⟩ := Put_fields_of_none v ttl now h
    refine ⟨newElement (s.valueList ++ s.keyIndex.map Prod.snd),
      newElement_not_mem_left _ _, newElement_not_mem_right _ _, hk, hv, ?_, ?_, ?_, ?_⟩
    · rw [hm]; simp
    · intro a ha
      rw [hm, Function.update_noteq ha]
    · unfold LruCache.entries
      rw [hv, hm, List.map_append]
      congr 1
      · apply List.map_congr_left
        intro a ha
        have hne : a ≠ newElement (s.valueList ++ s.keyIndex.map Prod.snd) :=
          fun hae => newElement_not_mem_left _ _ (hae ▸ ha)
        rw [Function.update_noteq hne]
      · simp
    · rw [hc]; ring

/-- Witness for C2: in the cache holding A, B, C, a `Put` on the present key A moves its
element to the back and replaces its item. -/
theorem Put_spec_witness :
    test1ABC.Consistent ∧ mapGet test1ABC.keyIndex "A" = some 0 ∧
    (test1ABC.Put "A" (testValue 1003 "x") (-1) 200).valueList =
      test1ABC.valueList.filter (fun a => a ≠ 0) ++ [0] ∧
    (test1ABC.Put "A" (testValue 1003 "x") (-1) 200).mem 0 =
      ⟨"A", testValue 1003 "x", 200, if (-1 : Int) < 0 then defaultExpire else -1⟩ :=
  ⟨by decide, by decide,
    ((Put_spec test1ABC "A" (testValue 1003 "x") (-1) 200 (by decide)).1 0
      (by decide)).2.1,
    ((Put_spec test1ABC "A" (testValue 1003 "x") (-1) 200 (by decide)).1 0
      (by decide)).2.2.2.1⟩

end LruCacheModel

namespace LruCacheModel
open LruCache

theorem Put_lookup (s : LruCache) (k : String) (v : Value) (ttl now : Int) :
    ∃ e, mapGet (s.Put k v ttl now).keyIndex k = some e ∧
      ((s.Put k v ttl now).mem e).val = v ∧
      ((s.Put k v ttl now).mem e).lastAccess = now ∧
      ((s.Put k v ttl now).mem e).expired = if ttl < 0 then defaultExpire else ttl := by
  cases h : mapGet s.keyIndex k with
  | some e =>
    obtain ⟨-, hk, hm, -⟩ := Put_fields_of_some v ttl now h
    refine ⟨e, by rw [hk, h], ?_, ?_, ?_⟩ <;> rw [hm] <;> simp
  | none =>
    obtain ⟨-, hk, hm, -⟩ := Put_fields_of_none v ttl now h
    refine ⟨newElement (s.valueList ++ s.keyIndex.map Prod.snd), ?_, ?_, ?_, ?_⟩
    · rw [hk, mapGet_append, h]
      simp [mapGet_cons]
    all_goals rw [hm]; simp

/-- C3. Write/read round trip: after `Put(k, v, ttl)` at time `t` with `ttl ≥ 0`, a read
at time `t' ≥ t` with nothing in between finds the value while `t' - t ≤ ttl` (`Get`
returns `v`, `IsExist` is true) and finds nothing once `t' - t > ttl` (`Get` returns nil,
`IsExist` is false). -/
theorem Put_Get_roundtrip (s : LruCache) (k : String) (v : Value) (ttl t t' : Int)
    (httl : 0 ≤ ttl) (_ht : t ≤ t') :
    (t' - t ≤ ttl →
      ((s.Put k v ttl t).Get k t').1 = v ∧ ((s.Put k v ttl t).IsExist k t').1 = true) ∧
    (t' - t > ttl →
      ((s.Put k v ttl t).Get k t').1 = Value.invalid ∧
      ((s.Put k v ttl t).IsExist k t').1 = false) := by
  obtain ⟨e, he, hv, hl, hx⟩ := Put_lookup s k v ttl t
  rw [if_neg (not_lt.2 httl)] at hx
  constructor
  · intro h
    have hn : ¬ t' - t > ttl := not_lt.2 h
    simp [Get, IsExist, he, hl, hx, hv, hn, h]
  · intro h
    have hn : ¬ t' - t ≤ ttl := not_le.2 h
    simp [Get, IsExist, he, hl, hx, h, hn]

/-- Witness for C3, after `TestCache1`: `Put` with ttl 2 at time 100, read at once and
read again 3 seconds later. -/
theorem Put_Get_roundtrip_witness :
    ((test1.Put "test" (testValue 1000 "test") 2 100).Get "test" 100).1 =
        testValue 1000 "test" ∧
    ((test1.Put "test" (testValue 1000 "test") 2 100).IsExist "test" 100).1 = true ∧
    ((test1.Put "test" (testValue 1000 "test") 2 100).Get "test" 103).1 = Value.invalid ∧
    ((test1.Put "test" (testValue 1000 "test") 2 100).IsExist "test" 103).1 = false :=
  ⟨((Put_Get_roundtrip test1 "test" (testValue 1000 "test") 2 100 100 (by decide)
      (by decide)).1 (by decide)).1,
   ((Put_Get_roundtrip test1 "test" (testValue 1000 "test") 2 100 100 (by decide)
      (by decide)).1 (by decide)).2,
   ((Put_Get_roundtrip test1 "test" (testValue 1000 "test") 2 100 103 (by decide)
      (by decide)).2 (by decide)).1,
   ((Put_Get_roundtrip test1 "test" (testValue 1000 "test") 2 100 103 (by decide)
      (by decide)).2 (by decide)).2⟩

end LruCacheModel

namespace LruCacheModel
open LruCache

theorem inv_touch {s : LruCache} (e : Nat) (h : s.Consistent ∧ s.SizeExact) :
    LruCache.Consistent { s with valueList := MoveToBack s.valueList e } ∧
    LruCache.SizeExact { s with valueList := MoveToBack s.valueList e } := by
  refine ⟨consistentOn_perm (moveToBack_perm _ _) h.1, ?_⟩
  unfold LruCache.SizeExact
  rw [sumSize_perm (moveToBack_perm _ _)]
  exact h.2

theorem inv_remove {s : LruCache} {k : String} {e : Nat}
    (hm : mapGet s.keyIndex k = some e) (h : s.Consistent ∧ s.SizeExact) :
    LruCache.Consistent { s with
      curCacheSize := s.curCacheSize - (s.mem e).Size
      keyIndex := mapDelete s.keyIndex k
      valueList := Remove s.valueList e } ∧
    LruCache.SizeExact { s with
      curCacheSize := s.curCacheSize - (s.mem e).Size
      keyIndex := mapDelete s.keyIndex k
      valueList := Remove s.valueList e } := by
  refine ⟨consistentOn_remove (mem_of_mapGet hm) h.1, ?_⟩
  unfold LruCache.SizeExact
  rw [sumSize_remove (mem_of_consistent h.1 hm).1]
  rw [show s.curCacheSize = sumSize s.mem s.valueList from h.2]

theorem inv_Get {s : LruCache} (k : String) (now : Int) (h : s.Consistent ∧ s.SizeExact) :
    (s.Get k now).2.Consistent ∧ (s.Get k now).2.SizeExact := by
  cases hg : mapGet s.keyIndex k with
  | none => simp only [Get, hg]; exact h
  | some e =>
    simp only [Get, hg]
    split_ifs
    · exact h
    · exact inv_touch _ h

theorem inv_GetEx {s : LruCache} (k : String) (now : Int)
    (h : s.Consistent ∧ s.SizeExact) :
    (s.GetEx k now).2.Consistent ∧ (s.GetEx k now).2.SizeExact := by
  cases hg : mapGet s.keyIndex k with
  | none => simp only [GetEx, hg]; exact h
  | some e =>
    simp only [GetEx, hg]
    split_ifs
    · exact h
    · exact inv_touch _ h

theorem inv_GetMultiStep {s : LruCache} (k : String) (now : Int)
    (h : s.Consistent ∧ s.SizeExact) :
    (s.GetMultiStep k now).2.Consistent ∧ (s.GetMultiStep k now).2.SizeExact := by
  cases hg : mapGet s.keyIndex k with
  | none => simp only [GetMultiStep, hg]; exact h
  | some e =>
    simp only [GetMultiStep, hg]
    split_ifs
    · exact inv_touch _ h
    · exact h

theorem inv_GetMulti (keys : List String) (now : Int) :
    ∀ {s : LruCache}, s.Consistent ∧ s.SizeExact →
      (s.GetMulti keys now).2.Consistent ∧ (s.GetMulti keys now).2.SizeExact := by
  induction keys with
  | nil => intro s h; exact h
  | cons k keys ih =>
    intro s h
    exact ih (inv_GetMultiStep k now h)

theorem consistent_congr {s s' : LruCache} (hm : s'.mem = s.mem)
    (hv : s'.valueList = s.valueList) (hk : s'.keyIndex = s.keyIndex) :
    s'.Consistent ↔ s.Consistent := by
  unfold LruCache.Consistent
  rw [hm, hv, hk]

theorem inv_Put {s : LruCache} (k : String) (v : Value) (ttl now : Int)
    (h : s.Consistent ∧ s.SizeExact) :
    (s.Put k v ttl now).Consistent ∧ (s.Put k v ttl now).SizeExact := by
  have hsz : s.curCacheSize = sumSize s.mem s.valueList := h.2
  cases hg : mapGet s.keyIndex k with
  | some e =>
    obtain ⟨hv, hk, hm, hc, -, -⟩ := Put_fields_of_some v ttl now hg
    have hmem := mem_of_consistent h.1 hg
    constructor
    · unfold LruCache.Consistent
      rw [hv, hk, hm]
      exact consistentOn_perm (moveToBack_perm _ _) (consistentOn_update rfl h.1)
    · unfold LruCache.SizeExact
      rw [hv, hm, hc, sumSize_perm (moveToBack_perm _ _),
        sumSize_update _ h.1.2.1 hmem.1, hsz]
  | none =>
    obtain ⟨hv, hk, hm, hc, -, -⟩ := Put_fields_of_none v ttl now hg
    constructor
    · unfold LruCache.Consistent
      rw [hv, hk, hm]
      have : ConsistentOn
          (Function.update s.mem (newElement (s.valueList ++ s.keyIndex.map Prod.snd))
            ⟨k, v, now, if ttl < 0 then defaultExpire else ttl⟩)
          (s.valueList ++ [newElement (s.valueList ++ s.keyIndex.map Prod.snd)])
          (mapSet s.keyIndex k (newElement (s.valueList ++ s.keyIndex.map Prod.snd))) :=
        consistentOn_insert rfl hg
          (newElement_not_mem_left s.valueList (s.keyIndex.map Prod.snd)) h.1
      unfold mapSet at this
      rw [mapDelete_eq_self hg] at this
      exact this
    · unfold LruCache.SizeExact
      rw [hv, hm, hc, sumSize_append,
        sumSize_update_of_not_mem _ (newElement_not_mem_left _ _), hsz]
      simp [sumSize]

theorem inv_Delete {s : LruCache} (k : String) (h : s.Consistent ∧ s.SizeExact) :
    (s.Delete k).2.Consistent ∧ (s.Delete k).2.SizeExact := by
  cases hg : mapGet s.keyIndex k with
  | none => simp only [Delete, hg]; exact h
  | some e => simp only [Delete, hg]; exact inv_remove hg h

theorem inv_ClearPrefixStep (pre : String) {s : LruCache} (k : String)
    (h : s.Consistent ∧ s.SizeExact) :
    (ClearPrefixStep pre s k).Consistent ∧ (ClearPrefixStep pre s k).SizeExact := by
  unfold ClearPrefixStep
  split_ifs
  · cases hg : mapGet s.keyIndex k with
    | none => exact h
    | some e => exact inv_remove hg h
  · exact h

theorem inv_sweepStep (now : Int) {s : LruCache} (k : String)
    (h : s.Consistent ∧ s.SizeExact) :
    (sweepStep now s k).Consistent ∧ (sweepStep now s k).SizeExact := by
  cases hg : mapGet s.keyIndex k with
  | none => simp only [sweepStep, hg]; exact h
  | some e =>
    simp only [sweepStep, hg]
    split_ifs
    · exact inv_remove hg h
    · exact h

theorem inv_foldl (f : LruCache → String → LruCache)
    (hf : ∀ (s : LruCache) (k : String), s.Consistent ∧ s.SizeExact →
      (f s k).Consistent ∧ (f s k).SizeExact) (keys : List String) :
    ∀ {s : LruCache}, s.Consistent ∧ s.SizeExact →
      (keys.foldl f s).Consistent ∧ (keys.foldl f s).SizeExact := by
  induction keys with
  | nil => intro s h; exact h
  | cons k keys ih =>
    intro s h
    exact ih (hf s k h)

theorem inv_ClearPrefixKeys {s : LruCache} (pre : String)
    (h : s.Consistent ∧ s.SizeExact) :
    (s.ClearPrefixKeys pre).Consistent ∧ (s.ClearPrefixKeys pre).SizeExact :=
  inv_foldl _ (fun _ k hs => inv_ClearPrefixStep pre k hs) _ h

theorem inv_sweep {s : LruCache} (now : Int) (h : s.Consistent ∧ s.SizeExact) :
    (s.sweep now).Consistent ∧ (s.sweep now).SizeExact :=
  inv_foldl _ (fun _ k hs => inv_sweepStep now k hs) _ h

theorem sumSize_congr {mem mem' : Nat → MemoryItem} {l : List Nat}
    (h : ∀ a ∈ l, (mem' a).Size = (mem a).Size) : sumSize mem' l = sumSize mem l := by
  unfold sumSize
  congr 1
  exact List.map_congr_left h

theorem inv_DelayDelete {s : LruCache} (k : String) (delay now : Int)
    (h : s.Consistent ∧ s.SizeExact) :
    (s.DelayDelete k delay now).2.Consistent ∧ (s.DelayDelete k delay now).2.SizeExact := by
  cases hg : mapGet s.keyIndex k with
  | none => simp only [DelayDelete, hg]; exact h
  | some e =>
    simp only [DelayDelete, hg]
    split_ifs
    · constructor
      · exact consistentOn_update rfl h.1
      · unfold LruCache.SizeExact
        rw [show s.curCacheSize = sumSize s.mem s.valueList from h.2]
        symm
        apply sumSize_congr
        intro a _
        by_cases hae : a = e
        · subst hae
          simp [MemoryItem.Size]
        · simp [Function.update_noteq hae]
    · exact h

theorem inv_ClearAll (s : LruCache) : s.ClearAll.Consistent ∧ s.ClearAll.SizeExact := by
  constructor
  · simp [ClearAll, LruCache.Consistent, ConsistentOn]
  · simp [ClearAll, LruCache.SizeExact, sumSize]

theorem front_eq_some {l : List Nat} {e : Nat} (h : Front l = some e) :
    ∃ t, l = e :: t := by
  cases l with
  | nil => simp [Front] at h
  | cons a t =>
    simp only [Front, List.head?_cons, Option.some.injEq] at h
    exact ⟨t, by rw [h]⟩

theorem mapGet_front {s : LruCache} {e : Nat} (hI : s.Consistent)
    (h : Front s.valueList = some e) : mapGet s.keyIndex (s.mem e).key = some e := by
  obtain ⟨t, ht⟩ := front_eq_some h
  exact mapGet_of_mem hI.1 (hI.2.2.2 e (by rw [ht]; exact List.mem_cons_self _ _))

theorem inv_shrinkEvict {s s' : LruCache} (hs : s.shrinkEvict = some s')
    (h : s.Consistent ∧ s.SizeExact) : s'.Consistent ∧ s'.SizeExact := by
  unfold shrinkEvict at hs
  split_ifs at hs
  cases he : Front s.valueList with
  | none => rw [he] at hs; exact absurd hs (by simp)
  | some e =>
    rw [he] at hs
    cases hs
    exact inv_remove (mapGet_front h.1 he) h

theorem setConfig_fields {s s' : LruCache} {config : Config}
    (h : s.setConfig config = some s') :
    s'.mem = s.mem ∧ s'.valueList = s.valueList ∧ s'.keyIndex = s.keyIndex ∧
    s'.curCacheSize = s.curCacheSize := by
  cases config with
  | empty => cases h; exact ⟨rfl, rfl, rfl, rfl⟩
  | malformed => cases h; exact ⟨rfl, rfl, rfl, rfl⟩
  | object cf =>
    simp only [setConfig] at h
    split at h
    · exact absurd h (by simp)
    · cases h
      refine ⟨?_, ?_, ?_, ?_⟩ <;> (repeat' split) <;> rfl

theorem inv_NewLruCache {name : String} {config : Config} {s : LruCache}
    (h : NewLruCache name config = some s) : s.Consistent ∧ s.SizeExact := by
  obtain ⟨hm, hv, hk, hc⟩ := setConfig_fields h
  constructor
  · unfold LruCache.Consistent
    rw [hm, hv, hk]
    simp [ConsistentOn]
  · unfold LruCache.SizeExact
    rw [hm, hv, hc]
    simp [sumSize]

theorem inv_step {s s' : LruCache} {op : Op} (hs : s.step op = some s')
    (h : s.Consistent ∧ s.SizeExact) : s'.Consistent ∧ s'.SizeExact := by
  cases op with
  | shrinkEvict => exact inv_shrinkEvict hs h
  | put key val expired now => cases hs; exact inv_Put _ _ _ _ h
  | get key now => cases hs; exact inv_Get _ _ h
  | getMulti keys now => cases hs; exact inv_GetMulti _ _ h
  | getEx key now => cases hs; exact inv_GetEx _ _ h
  | delete key => cases hs; exact inv_Delete _ h
  | delayDelete key delay now => cases hs; exact inv_DelayDelete _ _ _ h
  | isExist key now =>
    cases hs
    unfold IsExist
    cases mapGet s.keyIndex key <;> exact h
  | clearAll => cases hs; exact inv_ClearAll s
  | clearPrefixKeys pre => cases hs; exact inv_ClearPrefixKeys _ h
  | clearPrefixRemove pre key => cases hs; exact inv_ClearPrefixStep _ _ h
  | sweepRemove key now => cases hs; exact inv_sweepStep _ _ h

theorem inv_of_reachable {s : LruCache} (h : Reachable s) :
    s.Consistent ∧ s.SizeExact := by
  induction h with
  | new name config s h => exact inv_NewLruCache h
  | step s op s' _ h ih => exact inv_step h ih

theorem index_perm_of_consistent {s : LruCache} (hI : s.Consistent) :
    (s.keyIndex.map Prod.snd).Perm s.valueList := by
  obtain ⟨h1, h2, h3, h4⟩ := hI
  have hnd : (s.keyIndex.map Prod.snd).Nodup := by
    rw [List.nodup_map_iff_inj_on (h1.of_map _)]
    intro p hp q hq hpq
    apply Prod.ext _ hpq
    rw [← (h3 p hp).2, ← (h3 q hq).2, hpq]
  rw [List.perm_ext_iff_of_nodup hnd h2]
  intro a
  constructor
  · intro ha
    obtain ⟨p, hp, rfl⟩ := List.mem_map.1 ha
    exact (h3 p hp).1
  · intro ha
    exact List.mem_map.2 ⟨_, h4 a ha, rfl⟩

end LruCacheModel

namespace LruCacheModel
open LruCache

/-- C4. Size accounting (invariant I3): in every state reachable from a newly constructed
cache by `Put`, `Get`, `GetMulti`, `GetEx`, `Delete`, `DelayDelete`, `IsExist`,
`ClearAll`, `ClearPrefixKeys` (whole, or one removal of its loop), janitor shrink
evictions and janitor sweep removals, `curCacheSize` is the sum of `Size()` over the
entries of the index, which is also the sum over the linked elements; and right after
`ClearAll` the index is empty and `curCacheSize` is 0. -/
theorem size_accounting (s : LruCache) (h : Reachable s) :
    s.curCacheSize = s.indexSize ∧
    s.indexSize = sumSize s.mem s.valueList ∧
    s.ClearAll.curCacheSize = 0 ∧ s.ClearAll.keyIndex = [] ∧
    s.ClearAll.curCacheSize = s.ClearAll.indexSize := by
  have hinv := inv_of_reachable h
  have hp : s.indexSize = sumSize s.mem s.valueList :=
    sumSize_perm (index_perm_of_consistent hinv.1)
  refine ⟨?_, hp, rfl, rfl, rfl⟩
  rw [hp]
  exact hinv.2

/-- Witness for C4: the cache of `TestCache1` after its first `Put` is reachable, and its
running size, 116 bytes, is the size of its one entry. -/
theorem size_accounting_witness :
    Reachable test1Put ∧ test1Put.curCacheSize = test1Put.indexSize ∧
    test1Put.curCacheSize = 116 :=
  have hr : Reachable test1Put :=
    Reachable.step test1 (Op.put "test" (testValue 1000 "test") 2 100) test1Put
      (Reachable.new "test1" test1Config test1 rfl) rfl
  ⟨hr, (size_accounting test1Put hr).1, by decide⟩

end LruCacheModel

namespace LruCacheModel
open LruCache

/-- C5. `Delete` on a key that is not indexed returns the error and leaves the cache
exactly as it was.  On a key indexed at element `e`, in a cache whose index and recency
order are consistent, it returns nil, and the cache differs only in that `k` is deleted
from the index, `e` is unlinked and `curCacheSize` has dropped by the `Size()` of the item
of `e`: `k` is absent afterwards, every other key is indexed as before, no item changes,
and the remaining entries keep their order.  So `Delete` fails exactly when the key is
absent, and a `Delete` that follows a successful `Delete` of the same key fails. -/
theorem Delete_spec (s : LruCache) (k : String) :
    (mapGet s.keyIndex k = none → s.Delete k = (some "key not exist", s)) ∧
    (∀ e, s.Consistent → mapGet s.keyIndex k = some e →
      (s.Delete k).1 = none ∧
      (s.Delete k).2 =
        { s with
          curCacheSize := s.curCacheSize - (s.mem e).Size
          keyIndex := mapDelete s.keyIndex k
          valueList := s.valueList.filter (fun a => a ≠ e) } ∧
      mapGet (s.Delete k).2.keyIndex k = none ∧
      (∀ k', k' ≠ k → mapGet (s.Delete k).2.keyIndex k' = mapGet s.keyIndex k') ∧
      (s.Delete k).2.entries = s.entries.filter (fun i => i.key ≠ k) ∧
      (s.mem e).key = k) ∧
    ((s.Delete k).1 ≠ none ↔ mapGet s.keyIndex k = none) ∧
    ((s.Delete k).1 = none → ((s.Delete k).2.Delete k).1 = some "key not exist") := by
  refine ⟨?_, ?_, ?_, ?_⟩
  · intro h
    simp [Delete, h]
  · intro e hI h
    have hmem := mem_of_consistent hI h
    have hst : (s.Delete k).2 =
        { s with
          curCacheSize := s.curCacheSize - (s.mem e).Size
          keyIndex := mapDelete s.keyIndex k
          valueList := s.valueList.filter (fun a => a ≠ e) } := by
      simp only [Delete, h]
      rw [remove_eq_filter e hI.2.1]
    refine ⟨by simp only [Delete, h], hst, ?_, ?_, ?_, hmem.2⟩
    · rw [hst]
      exact mapGet_mapDelete_self _ _
    · intro k' hk
      rw [hst]
      exact mapGet_mapDelete_of_ne _ hk
    · rw [hst]
      exact entries_filter_of_consistent hI h
  · cases h : mapGet s.keyIndex k <;> simp [Delete, h]
  · cases h : mapGet s.keyIndex k with
    | none => simp [Delete, h]
    | some e =>
      intro _
      simp [Delete, h, mapGet_mapDelete_self]

/-- Witness for C5: deleting B from the cache holding A, B, C succeeds and leaves A, C;
deleting it again fails. -/
theorem Delete_spec_witness :
    test1ABC.Consistent ∧ mapGet test1ABC.keyIndex "B" = some 1 ∧
    (test1ABC.Delete "B").1 = none ∧
    (test1ABC.Delete "B").2 =
      { test1ABC with
        curCacheSize := test1ABC.curCacheSize - (test1ABC.mem 1).Size
        keyIndex := mapDelete test1ABC.keyIndex "B"
        valueList := test1ABC.valueList.filter (fun a => a ≠ 1) } ∧
    ((test1ABC.Delete "B").2.Delete "B").1 = some "key not exist" :=
  ⟨by decide, by decide,
    ((Delete_spec test1ABC "B").2.1 1 (by decide) (by decide)).1,
    ((Delete_spec test1ABC "B").2.1 1 (by decide) (by decide)).2.1,
    (Delete_spec test1ABC "B").2.2.2 (by decide)⟩

end LruCacheModel

namespace LruCacheModel
open LruCache

theorem shrinkLoop_zero (s : LruCache) (ev : List Nat) :
    shrinkLoop 0 s ev = ⟨Status.outOfFuel, s, ev⟩ := rfl

theorem shrinkLoop_done (fuel : Nat) {s : LruCache} (ev : List Nat)
    (h : ¬ s.curCacheSize > s.low) :
    shrinkLoop (fuel + 1) s ev = ⟨Status.done, s, ev⟩ := by
  simp only [shrinkLoop, if_neg h]

theorem shrinkLoop_panicked (fuel : Nat) {s : LruCache} (ev : List Nat)
    (h : s.curCacheSize > s.low) (hf : s.valueList = []) :
    shrinkLoop (fuel + 1) s ev = ⟨Status.panicked, s, ev⟩ := by
  simp only [shrinkLoop, if_pos h, hf, Front, List.head?_nil]

theorem shrinkLoop_evict (fuel : Nat) {s : LruCache} (ev : List Nat) {e : Nat}
    {t : List Nat} (h : s.curCacheSize > s.low) (hf : s.valueList = e :: t) :
    shrinkLoop (fuel + 1) s ev =
      shrinkLoop fuel
        { s with
          valueList := t
          curCacheSize := s.curCacheSize - (s.mem e).Size
          keyIndex := mapDelete s.keyIndex (s.mem e).key }
        (ev ++ [e]) := by
  simp only [shrinkLoop, if_pos h, hf, Front, List.head?_cons, Remove,
    List.erase_cons_head]

theorem shrinkLoop_take_drop (fuel : Nat) :
    ∀ (s : LruCache) (ev : List Nat), ∃ n,
      (shrinkLoop fuel s ev).evicted = ev ++ s.valueList.take n ∧
      (shrinkLoop fuel s ev).cache.valueList = s.valueList.drop n ∧
      (shrinkLoop fuel s ev).cache.mem = s.mem ∧
      (shrinkLoop fuel s ev).cache.keyIndex.Sublist s.keyIndex ∧
      (shrinkLoop fuel s ev).cache.low = s.low := by
  induction fuel with
  | zero =>
    intro s ev
    exact ⟨0, by simp [shrinkLoop_zero]⟩
  | succ fuel ih =>
    intro s ev
    by_cases h : s.curCacheSize > s.low
    · cases hf : s.valueList with
      | nil =>
        rw [shrinkLoop_panicked fuel ev h hf]
        exact ⟨0, by simp [hf]⟩
      | cons e t =>
        rw [shrinkLoop_evict fuel ev h hf]
        obtain ⟨n, h1, h2, h3, h4, h5⟩ := ih
          { s with
            valueList := t
            curCacheSize := s.curCacheSize - (s.mem e).Size
            keyIndex := mapDelete s.keyIndex (s.mem e).key }
          (ev ++ [e])
        refine ⟨n + 1, ?_, ?_, h3, ?_, h5⟩
        · rw [h1]; simp
        · rw [h2]; simp
        · exact h4.trans (List.filter_sublist _)
    · rw [shrinkLoop_done fuel ev h]
      exact ⟨0, by simp⟩

theorem shrinkLoop_consistent (fuel : Nat) :
    ∀ (s : LruCache) (ev : List Nat), s.Consistent →
      (shrinkLoop fuel s ev).cache.Consistent := by
  induction fuel with
  | zero => intro s ev h; exact h
  | succ fuel ih =>
    intro s ev hI
    by_cases h : s.curCacheSize > s.low
    · cases hf : s.valueList with
      | nil =>
        rw [shrinkLoop_panicked fuel ev h hf]
        exact hI
      | cons e t =>
        rw [shrinkLoop_evict fuel ev h hf]
        apply ih
        have hmem : ((s.mem e).key, e) ∈ s.keyIndex :=
          hI.2.2.2 e (by rw [hf]; exact List.mem_cons_self _ _)
        have := consistentOn_remove hmem hI
        rw [hf, Remove, List.erase_cons_head] at this
        exact this
    · rw [shrinkLoop_done fuel ev h]
      exact hI

theorem shrinkLoop_fuel (fuel : Nat) :
    ∀ (s : LruCache) (ev : List Nat), s.valueList.length < fuel →
      (shrinkLoop fuel s ev).status ≠ Status.outOfFuel := by
  induction fuel with
  | zero => intro s ev h; exact absurd h (Nat.not_lt_zero _)
  | succ fuel ih =>
    intro s ev hlen
    by_cases h : s.curCacheSize > s.low
    · cases hf : s.valueList with
      | nil =>
        rw [shrinkLoop_panicked fuel ev h hf]
        simp
      | cons e t =>
        rw [shrinkLoop_evict fuel ev h hf]
        apply ih
        rw [hf, List.length_cons] at hlen
        exact Nat.lt_of_succ_lt_succ hlen
    · rw [shrinkLoop_done fuel ev h]
      simp

theorem shrinkLoop_more_fuel (fuel : Nat) :
    ∀ (s : LruCache) (ev : List Nat),
      (shrinkLoop fuel s ev).status ≠ Status.outOfFuel →
      ∀ fuel', fuel ≤ fuel' → shrinkLoop fuel' s ev = shrinkLoop fuel s ev := by
  induction fuel with
  | zero => intro s ev h; exact absurd rfl h
  | succ fuel ih =>
    intro s ev hst fuel' hle
    obtain ⟨m, rfl⟩ : ∃ m, fuel' = m + 1 := ⟨fuel' - 1, by omega⟩
    by_cases h : s.curCacheSize > s.low
    · cases hf : s.valueList with
      | nil =>
        rw [shrinkLoop_panicked fuel ev h hf, shrinkLoop_panicked m ev h hf]
      | cons e t =>
        rw [shrinkLoop_evict fuel ev h hf] at hst ⊢
        rw [shrinkLoop_evict m ev h hf]
        exact ih _ _ hst m (by omega)
    · rw [shrinkLoop_done fuel ev h, shrinkLoop_done m ev h]

theorem shrinkLoop_sizeExact (fuel : Nat) :
    ∀ (s : LruCache) (ev : List Nat), s.SizeExact → 0 ≤ s.low →
      (shrinkLoop fuel s ev).status ≠ Status.panicked ∧
      (shrinkLoop fuel s ev).cache.SizeExact ∧
      ((shrinkLoop fuel s ev).status = Status.done →
        (shrinkLoop fuel s ev).cache.curCacheSize ≤ s.low) := by
  induction fuel with
  | zero =>
    intro s ev hS _
    simp [shrinkLoop_zero, hS]
  | succ fuel ih =>
    intro s ev hS hlow
    have hsz : s.curCacheSize = sumSize s.mem s.valueList := hS
    by_cases h : s.curCacheSize > s.low
    · cases hf : s.valueList with
      | nil =>
        rw [hf] at hsz
        simp only [sumSize, List.map_nil, List.sum_nil] at hsz
        omega
      | cons e t =>
        rw [shrinkLoop_evict fuel ev h hf]
        refine ih
          { s with
            valueList := t
            curCacheSize := s.curCacheSize - (s.mem e).Size
            keyIndex := mapDelete s.keyIndex (s.mem e).key }
          (ev ++ [e]) ?_ hlow
        show s.curCacheSize - (s.mem e).Size = sumSize s.mem t
        rw [hsz, hf]
        simp [sumSize]
    · rw [shrinkLoop_done fuel ev h]
      exact ⟨by simp, hS, fun _ => not_lt.1 h⟩

end LruCacheModel

namespace LruCacheModel
open LruCache

theorem Put_three_fields (s : LruCache) (A B C : String) (vA vB vC : Value)
    (ttlA ttlB ttlC tA tB tC : Int) (hv : s.valueList = []) (hk : s.keyIndex = [])
    (hAB : A ≠ B) (hAC : A ≠ C) (hBC : B ≠ C) :
    (((s.Put A vA ttlA tA).Put B vB ttlB tB).Put C vC ttlC tC).valueList = [0, 1, 2] ∧
    (((s.Put A vA ttlA tA).Put B vB ttlB tB).Put C vC ttlC tC).keyIndex =
      [(A, 0), (B, 1), (C, 2)] ∧
    (((s.Put A vA ttlA tA).Put B vB ttlB tB).Put C vC ttlC tC).mem 0 =
      ⟨A, vA, tA, if ttlA < 0 then defaultExpire else ttlA⟩ ∧
    (((s.Put A vA ttlA tA).Put B vB ttlB tB).Put C vC ttlC tC).mem 1 =
      ⟨B, vB, tB, if ttlB < 0 then defaultExpire else ttlB⟩ ∧
    (((s.Put A vA ttlA tA).Put B vB ttlB tB).Put C vC ttlC tC).mem 2 =
      ⟨C, vC, tC, if ttlC < 0 then defaultExpire else ttlC⟩ := by
  have g1 : mapGet s.keyIndex A = none := by rw [hk]; rfl
  obtain ⟨v1, k1, m1, -⟩ := Put_fields_of_none vA ttlA tA g1
  rw [hv, hk] at v1 k1 m1
  simp only [List.map_nil, List.append_nil, List.nil_append, newElement] at v1 k1 m1
  have g2 : mapGet (s.Put A vA ttlA tA).keyIndex B = none := by
    rw [k1, mapGet_cons, if_neg (Ne.symm hAB)]; rfl
  obtain ⟨v2, k2, m2, -⟩ := Put_fields_of_none vB ttlB tB g2
  simp [v1, k1, m1, newElement] at v2 k2 m2
  have g3 : mapGet ((s.Put A vA ttlA tA).Put B vB ttlB tB).keyIndex C = none := by
    rw [k2, mapGet_cons, if_neg (Ne.symm hAC), mapGet_cons, if_neg (Ne.symm hBC)]; rfl
  obtain ⟨v3, k3, m3, -⟩ := Put_fields_of_none vC ttlC tC g3
  simp [v2, k2, m2, newElement] at v3 k3 m3
  refine ⟨v3, k3, ?_, ?_, ?_⟩ <;> rw [m3] <;> simp [Function.update]

/-- C6. LRU eviction order.  In a cache whose index and recency order are consistent, the
elements that one shrink run removes are, in the order of removal, a prefix of the recency
order taken from its front (the least recently used first); what stays is the rest of the
recency order, in the same order and with the same items, the index loses entries only
and is again consistent with the recency order.  In particular, after `Put` of three new
keys A, B, C in this order into an empty cache and a `Get(A)` that finds A live, the
recency order reads B, C, A from front to back, and the keys evicted by a shrink form a
prefix of B, C, A. -/
theorem shrink_evicts_lru_first :
    (∀ s : LruCache, s.Consistent → ∃ n,
      s.shrink.evicted = s.valueList.take n ∧
      s.shrink.cache.valueList = s.valueList.drop n ∧
      s.shrink.cache.entries = s.entries.drop n ∧
      s.shrink.cache.keyIndex.Sublist s.keyIndex ∧
      s.shrink.cache.Consistent) ∧
    (∀ (s : LruCache) (A B C : String) (vA vB vC : Value)
      (ttlA ttlB ttlC tA tB tC t : Int),
      s.valueList = [] → s.keyIndex = [] → A ≠ B → A ≠ C → B ≠ C →
      t - tA ≤ (if ttlA < 0 then defaultExpire else ttlA) →
      ((((s.Put A vA ttlA tA).Put B vB ttlB tB).Put C vC ttlC tC).Get A t).1 = vA ∧
      ((((s.Put A vA ttlA tA).Put B vB ttlB tB).Put C vC ttlC tC).Get A t).2.entries.map
        MemoryItem.key = [B, C, A] ∧
      (((((s.Put A vA ttlA tA).Put B vB ttlB tB).Put C vC ttlC tC).Get A t).2.shrink.evicted.map
        (fun e => (((((s.Put A vA ttlA tA).Put B vB ttlB tB).Put C vC ttlC tC).Get A
          t).2.mem e).key)) <+: [B, C, A]) := by
  constructor
  · intro s hI
    obtain ⟨n, h1, h2, h3, h4, -⟩ :=
      shrinkLoop_take_drop (s.valueList.length + 1) { s with chShrinkCache := false } []
    dsimp only at h1 h2 h3 h4
    refine ⟨n, ?_, h2, ?_, h4, shrinkLoop_consistent _ _ _ hI⟩
    · simpa using h1
    · unfold LruCache.entries shrink
      rw [h2, h3, List.map_drop]
  · intro s A B C vA vB vC ttlA ttlB ttlC tA tB tC t hv hk hAB hAC hBC hlive
    obtain ⟨v3, k3, m0, m1, m2⟩ :=
      Put_three_fields s A B C vA vB vC ttlA ttlB ttlC tA tB tC hv hk hAB hAC hBC
    have g : mapGet (((s.Put A vA ttlA tA).Put B vB ttlB tB).Put C vC ttlC tC).keyIndex A
        = some 0 := by
      rw [k3, mapGet_cons, if_pos rfl]
    have hnot : ¬ t - tA > (if ttlA < 0 then defaultExpire else ttlA) := not_lt.2 hlive
    have hval : ((((s.Put A vA ttlA tA).Put B vB ttlB tB).Put C vC ttlC tC).Get A t).1
        = vA := by
      simp only [Get, g, m0, if_neg hnot]
    have hst : ((((s.Put A vA ttlA tA).Put B vB ttlB tB).Put C vC ttlC tC).Get A t).2 =
        { ((s.Put A vA ttlA tA).Put B vB ttlB tB).Put C vC ttlC tC with
          valueList := [1, 2, 0] } := by
      simp only [Get, g, m0, if_neg hnot, v3]
      rfl
    have hent : ((((s.Put A vA ttlA tA).Put B vB ttlB tB).Put C vC ttlC tC).Get A
        t).2.entries.map MemoryItem.key = [B, C, A] := by
      rw [hst]
      simp [LruCache.entries, m0, m1, m2]
    refine ⟨hval, hent, ?_⟩
    obtain ⟨n, h1, -⟩ := shrinkLoop_take_drop
      (((((s.Put A vA ttlA tA).Put B vB ttlB tB).Put C vC ttlC tC).Get A
        t).2.valueList.length + 1)
      { ((((s.Put A vA ttlA tA).Put B vB ttlB tB).Put C vC ttlC tC).Get A t).2 with
        chShrinkCache := false } []
    unfold shrink
    rw [h1, List.nil_append, ← hent]
    unfold LruCache.entries
    rw [List.map_map]
    exact (List.take_prefix _ _).map _

/-- Witness for C6: the cache holding A, B, C (324 bytes, low watermark 200) is
consistent, a shrink removes the elements of A and then B, and after a live `Get(A)` the
order reads B, C, A. -/
theorem shrink_evicts_lru_first_witness :
    test1ABC.Consistent ∧
    (∃ n, test1ABC.shrink.evicted = test1ABC.valueList.take n ∧
      test1ABC.shrink.cache.valueList = test1ABC.valueList.drop n ∧
      test1ABC.shrink.cache.entries = test1ABC.entries.drop n ∧
      test1ABC.shrink.cache.keyIndex.Sublist test1ABC.keyIndex ∧
      test1ABC.shrink.cache.Consistent) ∧
    test1ABC.shrink.evicted = [0, 1] ∧
    (test1ABC.Get "A" 103).2.entries.map MemoryItem.key = ["B", "C", "A"] :=
  ⟨by decide, shrink_evicts_lru_first.1 test1ABC (by decide), by decide,
    (shrink_evicts_lru_first.2 test1 "A" "B" "C" (testValue 1000 "a") (testValue 1001 "b")
      (testValue 1002 "c") 5 5 5 100 100 100 103 rfl rfl (by decide) (by decide)
      (by decide) (by decide)).2.1⟩

end LruCacheModel

namespace LruCacheModel
open LruCache

/-- C7. Shrink postcondition.  In a cache whose running size is the sum of the sizes of
its entries and whose low threshold is not negative: whenever the running size exceeds
`low` the recency order has a front element; processing one shrink signal ends at the
`break` of its loop (it neither panics on an empty list nor runs out of iterations, and
any larger iteration budget gives the same run); and in the state it ends in, the running
size is at most `low` or the index is empty.  In fact the running size is at most `low`
there, and it is still the sum of the sizes of the entries. -/
theorem shrink_postcondition (s : LruCache) (hS : s.SizeExact) (hlow : 0 ≤ s.low) :
    (s.curCacheSize > s.low → Front s.valueList ≠ none) ∧
    s.shrink.status = Status.done ∧
    (∀ fuel, s.valueList.length < fuel →
      shrinkLoop fuel { s with chShrinkCache := false } [] = s.shrink) ∧
    (s.shrink.cache.curCacheSize ≤ s.shrink.cache.low ∨ s.shrink.cache.keyIndex = []) ∧
    s.shrink.cache.curCacheSize ≤ s.low ∧
    s.shrink.cache.low = s.low ∧
    s.shrink.cache.SizeExact := by
  have hfuel := shrinkLoop_fuel (s.valueList.length + 1)
    { s with chShrinkCache := false } [] (Nat.lt_succ_self _)
  obtain ⟨hp, hsz, hd⟩ := shrinkLoop_sizeExact (s.valueList.length + 1)
    { s with chShrinkCache := false } [] hS hlow
  obtain ⟨n, -, -, -, -, hl⟩ := shrinkLoop_take_drop (s.valueList.length + 1)
    { s with chShrinkCache := false } []
  have hdone : s.shrink.status = Status.done := by
    unfold shrink
    cases hst : (shrinkLoop (s.valueList.length + 1)
      { s with chShrinkCache := false } []).status with
    | done => rfl
    | panicked => exact absurd hst hp
    | outOfFuel => exact absurd hst hfuel
  have hle : s.shrink.cache.curCacheSize ≤ s.low := hd hdone
  refine ⟨?_, hdone, ?_, ?_, hle, hl, hsz⟩
  · intro h hf
    have hsum : s.curCacheSize = sumSize s.mem s.valueList := hS
    cases hv : s.valueList with
    | nil =>
      rw [hv] at hsum
      simp only [sumSize, List.map_nil, List.sum_nil] at hsum
      omega
    | cons e t => simp [Front, hv] at hf
  · intro fuel hlt
    exact shrinkLoop_more_fuel _ _ _ hfuel fuel hlt
  · left
    rw [show s.shrink.cache.low = s.low from hl]
    exact hle

/-- Witness for C7: the cache holding A, B, C (324 bytes, thresholds 200 and 400) ends a
shrink at the `break` with 107 bytes. -/
theorem shrink_postcondition_witness :
    test1ABC.SizeExact ∧ (0 : Int) ≤ test1ABC.low ∧
    test1ABC.shrink.status = Status.done ∧
    test1ABC.shrink.cache.curCacheSize ≤ test1ABC.low ∧
    test1ABC.curCacheSize = 321 ∧ test1ABC.shrink.cache.curCacheSize = 107 :=
  ⟨by decide, by decide,
    (shrink_postcondition test1ABC (by decide) (by decide)).2.1,
    (shrink_postcondition test1ABC (by decide) (by decide)).2.2.2.2.1,
    by decide, by decide⟩

end LruCacheModel

namespace LruCacheModel
open LruCache

theorem GetMulti_length (keys : List String) (now : Int) :
    ∀ s : LruCache, (s.GetMulti keys now).1.length = keys.length := by
  induction keys with
  | nil => intro s; rfl
  | cons k keys ih =>
    intro s
    simp only [GetMulti, List.length_cons, ih]

/-- C8 (the code departs from the claim). In the cache of `TestCache1` after
`Put("test", v, 2)` at time 100: at time 100 the entry is live, `Get` returns `v` but
`GetMulti` gives nil for it; at time 103 the entry is expired, `Get` returns nil but
`GetMulti` gives `v` and moves the entry in the recency order.  The test of `GetMulti`
on the elapsed time is the one of `Get` with the two branches exchanged. -/
theorem GetMulti_differs_from_Get :
    (test1Put.Get "test" 100).1 = testValue 1000 "test" ∧
    (test1Put.GetMulti ["test"] 100).1 = [Value.invalid] ∧
    (test1Put.Get "test" 103).1 = Value.invalid ∧
    (test1Put.GetMulti ["test"] 103).1 = [testValue 1000 "test"] ∧
    testValue 1000 "test" ≠ Value.invalid :=
  ⟨rfl, rfl, rfl, rfl, fun h => Value.noConfusion h⟩

/-- C9. `GetEx` agrees with `Get` on the same cache at the same time: it leaves the same
cache behind, its value is the one `Get` returns, its flag is true exactly when the key is
indexed and `now - lastAccess ≤ ttl`, in which case the value is the stored one, and
otherwise it returns `(nil, false)`. -/
theorem GetEx_agrees_with_Get (s : LruCache) (k : String) (now : Int) :
    (s.GetEx k now).2 = (s.Get k now).2 ∧
    (s.GetEx k now).1.1 = (s.Get k now).1 ∧
    ((s.GetEx k now).1.2 = true ↔
      ∃ e, mapGet s.keyIndex k = some e ∧
        now - (s.mem e).lastAccess ≤ (s.mem e).expired) ∧
    ((s.GetEx k now).1.2 = true →
      ∃ e, mapGet s.keyIndex k = some e ∧ (s.GetEx k now).1.1 = (s.mem e).val) ∧
    ((s.GetEx k now).1.2 = false → (s.GetEx k now).1 = (Value.invalid, false)) := by
  cases h : mapGet s.keyIndex k with
  | none => simp [GetEx, Get, h]
  | some e =>
    by_cases hx : now - (s.mem e).lastAccess > (s.mem e).expired
    · have hn : ¬ now - (s.mem e).lastAccess ≤ (s.mem e).expired := not_le.2 hx
      simp [GetEx, Get, h, hx, hn]
      omega
    · have hn : now - (s.mem e).lastAccess ≤ (s.mem e).expired := not_lt.1 hx
      simp [GetEx, Get, h, hx, hn]
      omega

/-- C10. `IsExist(k)` is true exactly when `k` is indexed and `now - lastAccess ≤ ttl`;
when it is true `Get(k)` at the same time returns the stored value, when it is false
`Get(k)` returns nil; and `IsExist` leaves the whole cache, recency order included, as it
was. -/
theorem IsExist_spec (s : LruCache) (k : String) (now : Int) :
    ((s.IsExist k now).1 = true ↔
      ∃ e, mapGet s.keyIndex k = some e ∧
        now - (s.mem e).lastAccess ≤ (s.mem e).expired) ∧
    ((s.IsExist k now).1 = true →
      ∃ e, mapGet s.keyIndex k = some e ∧ (s.Get k now).1 = (s.mem e).val) ∧
    ((s.IsExist k now).1 = false → (s.Get k now).1 = Value.invalid) ∧
    (s.IsExist k now).2 = s := by
  cases h : mapGet s.keyIndex k with
  | none => simp [IsExist, Get, h]
  | some e =>
    by_cases hx : now - (s.mem e).lastAccess > (s.mem e).expired
    · have hn : ¬ now - (s.mem e).lastAccess ≤ (s.mem e).expired := not_le.2 hx
      simp [IsExist, Get, h, hx, hn]
      omega
    · have hn : now - (s.mem e).lastAccess ≤ (s.mem e).expired := not_lt.1 hx
      simp [IsExist, Get, h, hx, hn]
      omega

end LruCacheModel

namespace LruCacheModel
open LruCache

/-- C11. `DelayDelete(k, d)` at time `now`.  On a key that is not indexed it returns the
error and leaves the cache as it was.  On a key indexed at element `e` whose entry has
`now - lastAccess ≤ ttl` it returns nil, and the cache differs only in the item of `e`,
which keeps its key and value and gets `ttl = d` and `lastAccess = now`; afterwards
`IsExist(k)` at time `t'` is true exactly when `t' - now ≤ d`, so at every `t'` with
`now ≤ t' ≤ now + d`.  On a key whose entry is already expired it returns nil and leaves
the cache as it was. -/
theorem DelayDelete_spec (s : LruCache) (k : String) (d now : Int) :
    (mapGet s.keyIndex k = none → s.DelayDelete k d now = (some "key not exist", s)) ∧
    (∀ e, mapGet s.keyIndex k = some e →
      now - (s.mem e).lastAccess ≤ (s.mem e).expired →
      s.DelayDelete k d now =
        (none, { s with
          mem := Function.update s.mem e ⟨(s.mem e).key, (s.mem e).val, now, d⟩ }) ∧
      (∀ t', ((s.DelayDelete k d now).2.IsExist k t').1 = true ↔ t' - now ≤ d) ∧
      (∀ t', now ≤ t' → t' ≤ now + d →
        ((s.DelayDelete k d now).2.IsExist k t').1 = true)) ∧
    (∀ e, mapGet s.keyIndex k = some e →
      now - (s.mem e).lastAccess > (s.mem e).expired →
      s.DelayDelete k d now = (none, s)) := by
  refine ⟨?_, ?_, ?_⟩
  · intro h
    simp [DelayDelete, h]
  · intro e h hlive
    have hst : s.DelayDelete k d now =
        (none, { s with
          mem := Function.update s.mem e ⟨(s.mem e).key, (s.mem e).val, now, d⟩ }) := by
      simp only [DelayDelete, h, if_pos hlive]
    have hex : ∀ t', ((s.DelayDelete k d now).2.IsExist k t').1 = true ↔ t' - now ≤ d := by
      intro t'
      rw [hst]
      simp [IsExist, h]
    refine ⟨hst, hex, ?_⟩
    intro t' _ h2
    rw [hex]
    omega
  · intro e h hexp
    have hn : ¬ now - (s.mem e).lastAccess ≤ (s.mem e).expired := not_le.2 hexp
    simp only [DelayDelete, h, if_neg hn]

/-- Witness for C11, after `TestDelayDelete`: `Put` with ttl 1 at time 100, `DelayDelete`
with delay 3 at time 100, and the key still exists 2 seconds later. -/
theorem DelayDelete_spec_witness :
    mapGet (test1.Put "test" (testValue 1000 "test") 1 100).keyIndex "test" = some 0 ∧
    (((test1.Put "test" (testValue 1000 "test") 1 100).DelayDelete "test" 3 100).2.IsExist
      "test" 102).1 = true ∧
    ((test1.Put "test" (testValue 1000 "test") 1 100).IsExist "test" 102).1 = false :=
  ⟨by decide,
    ((DelayDelete_spec (test1.Put "test" (testValue 1000 "test") 1 100) "test" 3 100).2.1 0
      (by decide) (by decide)).2.2 102 (by decide) (by decide),
    by decide⟩

end LruCacheModel

namespace LruCacheModel
open LruCache

theorem LruCache.ext_fields {s s' : LruCache} (h1 : s'.name = s.name) (h2 : s'.low = s.low)
    (h3 : s'.high = s.high) (h4 : s'.interval = s.interval)
    (h5 : s'.curCacheSize = s.curCacheSize) (h6 : s'.chShrinkCache = s.chShrinkCache)
    (h7 : s'.mem = s.mem) (h8 : s'.valueList = s.valueList)
    (h9 : s'.keyIndex = s.keyIndex) : s' = s := by
  cases s
  cases s'
  simp only at h1 h2 h3 h4 h5 h6 h7 h8 h9
  subst h1 h2 h3 h4 h5 h6 h7 h8 h9
  rfl

theorem sweepStep_eq_removeWhen (now : Int) (s : LruCache) (k : String) :
    sweepStep now s k = s.removeWhen (MemoryItem.expiredAt now) k := by
  cases h : mapGet s.keyIndex k with
  | none => simp only [sweepStep, LruCache.removeWhen, h]
  | some e =>
    by_cases hx : now - (s.mem e).lastAccess > (s.mem e).expired
    · simp [sweepStep, LruCache.removeWhen, h, hx, MemoryItem.expiredAt]
    · simp [sweepStep, LruCache.removeWhen, h, hx, MemoryItem.expiredAt]

theorem ClearPrefixStep_eq_removeWhen (pre : String) {s : LruCache} (hI : s.Consistent)
    (k : String) :
    ClearPrefixStep pre s k = s.removeWhen (fun itm => HasPrefix itm.key pre) k := by
  cases h : mapGet s.keyIndex k with
  | none =>
    simp only [ClearPrefixStep, LruCache.removeWhen, h]
    split_ifs <;> rfl
  | some e =>
    have hk := (mem_of_consistent hI h).2
    simp only [ClearPrefixStep, LruCache.removeWhen, h, hk]

theorem snd_eq_of_consistent {s : LruCache} {k : String} {e : Nat} (hI : s.Consistent)
    (h : mapGet s.keyIndex k = some e) {p : String × Nat} (hp : p ∈ s.keyIndex)
    (hk : p.1 = k) : p.2 = e := by
  have h1 : mapGet s.keyIndex p.1 = some p.2 := mapGet_of_mem hI.1 hp
  rw [hk, h] at h1
  exact (Option.some.inj h1).symm

theorem removeWhen_step (P : MemoryItem → Bool) {s : LruCache} (hI : s.Consistent)
    (k : String) :
    (s.removeWhen P k).Consistent ∧
    (s.removeWhen P k).name = s.name ∧ (s.removeWhen P k).low = s.low ∧
    (s.removeWhen P k).high = s.high ∧ (s.removeWhen P k).interval = s.interval ∧
    (s.removeWhen P k).chShrinkCache = s.chShrinkCache ∧
    (s.removeWhen P k).mem = s.mem ∧
    (s.removeWhen P k).keyIndex =
      s.keyIndex.filter (fun p => !(decide (p.1 = k) && P (s.mem p.2))) ∧
    (s.removeWhen P k).valueList =
      s.valueList.filter (fun a => !(decide ((s.mem a).key = k) && P (s.mem a))) ∧
    (s.removeWhen P k).curCacheSize -
        sumSize (s.removeWhen P k).mem (s.removeWhen P k).valueList =
      s.curCacheSize - sumSize s.mem s.valueList := by
  cases h : mapGet s.keyIndex k with
  | none =>
    have hs : s.removeWhen P k = s := by simp only [LruCache.removeWhen, h]
    rw [hs]
    refine ⟨hI, rfl, rfl, rfl, rfl, rfl, rfl, ?_, ?_, rfl⟩
    · symm
      rw [List.filter_eq_self]
      intro p hp
      have := mapGet_eq_none_iff.1 h p hp
      simp [this]
    · symm
      rw [List.filter_eq_self]
      intro a ha
      have := mapGet_eq_none_iff.1 h _ (hI.2.2.2 a ha)
      simp at this
      simp [this]
  | some e =>
    cases hP : P (s.mem e) with
    | false =>
      have hs : s.removeWhen P k = s := by simp [LruCache.removeWhen, h, hP]
      rw [hs]
      refine ⟨hI, rfl, rfl, rfl, rfl, rfl, rfl, ?_, ?_, rfl⟩
      · symm
        rw [List.filter_eq_self]
        intro p hp
        by_cases hk : p.1 = k
        · rw [snd_eq_of_consistent hI h hp hk, hP]; simp
        · simp [hk]
      · symm
        rw [List.filter_eq_self]
        intro a ha
        by_cases hk : (s.mem a).key = k
        · rw [(key_eq_iff_of_consistent hI h ha).1 hk, hP]; simp
        · simp [hk]
    | true =>
      have hmem := mem_of_consistent hI h
      have hs : s.removeWhen P k =
          { s with
            curCacheSize := s.curCacheSize - (s.mem e).Size
            keyIndex := mapDelete s.keyIndex k
            valueList := Remove s.valueList e } := by
        simp [LruCache.removeWhen, h, hP]
      rw [hs]
      refine ⟨consistentOn_remove (mem_of_mapGet h) hI, rfl, rfl, rfl, rfl, rfl, rfl,
        ?_, ?_, ?_⟩
      · show mapDelete s.keyIndex k = _
        unfold mapDelete
        apply List.filter_congr
        intro p hp
        by_cases hk : p.1 = k
        · rw [snd_eq_of_consistent hI h hp hk, hP]; simp [hk]
        · simp [hk]
      · show Remove s.valueList e = _
        rw [remove_eq_filter e hI.2.1]
        apply List.filter_congr
        intro a ha
        by_cases hae : a = e
        · subst hae; simp [hmem.2, hP]
        · have : ¬ (s.mem a).key = k := fun hk =>
            hae ((key_eq_iff_of_consistent hI h ha).1 hk)
          simp [hae, this]
      · show s.curCacheSize - (s.mem e).Size - sumSize s.mem (Remove s.valueList e) = _
        rw [sumSize_remove hmem.1]
        ring

end LruCacheModel

namespace LruCacheModel
open LruCache

theorem removeWhen_foldl (P : MemoryItem → Bool) (ks : List String) :
    ∀ s : LruCache, s.Consistent →
      (ks.foldl (LruCache.removeWhen P) s).Consistent ∧
      (ks.foldl (LruCache.removeWhen P) s).name = s.name ∧
      (ks.foldl (LruCache.removeWhen P) s).low = s.low ∧
      (ks.foldl (LruCache.removeWhen P) s).high = s.high ∧
      (ks.foldl (LruCache.removeWhen P) s).interval = s.interval ∧
      (ks.foldl (LruCache.removeWhen P) s).chShrinkCache = s.chShrinkCache ∧
      (ks.foldl (LruCache.removeWhen P) s).mem = s.mem ∧
      (ks.foldl (LruCache.removeWhen P) s).keyIndex =
        s.keyIndex.filter (fun p => !(decide (p.1 ∈ ks) && P (s.mem p.2))) ∧
      (ks.foldl (LruCache.removeWhen P) s).valueList =
        s.valueList.filter (fun a => !(decide ((s.mem a).key ∈ ks) && P (s.mem a))) ∧
      (ks.foldl (LruCache.removeWhen P) s).curCacheSize -
          sumSize (ks.foldl (LruCache.removeWhen P) s).mem
            (ks.foldl (LruCache.removeWhen P) s).valueList =
        s.curCacheSize - sumSize s.mem s.valueList := by
  induction ks with
  | nil =>
    intro s hI
    refine ⟨hI, rfl, rfl, rfl, rfl, rfl, rfl, ?_, ?_, rfl⟩ <;> simp
  | cons k ks ih =>
    intro s hI
    obtain ⟨c1, n1, l1, g1, i1, b1, m1, k1, v1, z1⟩ := removeWhen_step P hI k
    obtain ⟨c2, n2, l2, g2, i2, b2, m2, k2, v2, z2⟩ := ih (s.removeWhen P k) c1
    rw [List.foldl_cons]
    refine ⟨c2, n2.trans n1, l2.trans l1, g2.trans g1, i2.trans i1, b2.trans b1,
      m2.trans m1, ?_, ?_, z2.trans z1⟩
    · rw [k2, k1, m1, List.filter_filter]
      apply List.filter_congr
      intro p _
      by_cases hk : p.1 = k <;> by_cases hm : p.1 ∈ ks <;>
        cases P (s.mem p.2) <;> simp [hk, hm]
    · rw [v2, v1, m1, List.filter_filter]
      apply List.filter_congr
      intro a _
      by_cases hk : (s.mem a).key = k <;> by_cases hm : (s.mem a).key ∈ ks <;>
        cases P (s.mem a) <;> simp [hk, hm]

theorem sumSize_filter_add (mem : Nat → MemoryItem) (q : Nat → Bool) (l : List Nat) :
    sumSize mem (l.filter q) + sumSize mem (l.filter (fun a => !q a)) = sumSize mem l := by
  induction l with
  | nil => simp [sumSize]
  | cons a l ih =>
    unfold sumSize at ih ⊢
    cases h : q a <;> simp [List.filter_cons, h] <;> omega

theorem mapGet_filter_iff {m : List (String × Nat)} (hn : (m.map Prod.fst).Nodup)
    (q : String × Nat → Bool) (k : String) (e : Nat) :
    mapGet (m.filter q) k = some e ↔ mapGet m k = some e ∧ q (k, e) = true := by
  have hn' : ((m.filter q).map Prod.fst).Nodup :=
    hn.sublist ((List.filter_sublist m).map Prod.fst)
  constructor
  · intro h
    have := List.mem_filter.1 (mem_of_mapGet h)
    exact ⟨mapGet_of_mem hn this.1, this.2⟩
  · intro h
    exact mapGet_of_mem hn' (List.mem_filter.2 ⟨mem_of_mapGet h.1, h.2⟩)

/-- The effect of a removal loop over a key array that holds every indexed key, in a
consistent cache: the entries whose item satisfies `P` are gone, nothing else changes,
and the running size has dropped by the sizes of the removed entries. -/
theorem removeWhen_foldl_all (P : MemoryItem → Bool) {s : LruCache} (hI : s.Consistent)
    (ks : List String) (hks : ∀ k, k ∈ mapKeys s.keyIndex → k ∈ ks) :
    ks.foldl (LruCache.removeWhen P) s =
      { s with
        curCacheSize := s.curCacheSize -
          sumSize s.mem (s.valueList.filter (fun a => P (s.mem a)))
        keyIndex := s.keyIndex.filter (fun p => !P (s.mem p.2))
        valueList := s.valueList.filter (fun a => !P (s.mem a)) } := by
  obtain ⟨-, n1, l1, g1, i1, b1, m1, k1, v1, z1⟩ := removeWhen_foldl P ks s hI
  have hk : (ks.foldl (LruCache.removeWhen P) s).keyIndex =
      s.keyIndex.filter (fun p => !P (s.mem p.2)) := by
    rw [k1]
    apply List.filter_congr
    intro p hp
    have : p.1 ∈ ks := hks _ (List.mem_map_of_mem Prod.fst hp)
    simp [this]
  have hv : (ks.foldl (LruCache.removeWhen P) s).valueList =
      s.valueList.filter (fun a => !P (s.mem a)) := by
    rw [v1]
    apply List.filter_congr
    intro a ha
    have : (s.mem a).key ∈ ks := hks _ (List.mem_map_of_mem Prod.fst (hI.2.2.2 a ha))
    simp [this]
  refine @LruCache.ext_fields
    { s with
      curCacheSize := s.curCacheSize -
        sumSize s.mem (s.valueList.filter (fun a => P (s.mem a)))
      keyIndex := s.keyIndex.filter (fun p => !P (s.mem p.2))
      valueList := s.valueList.filter (fun a => !P (s.mem a)) }
    _ n1 l1 g1 i1 ?_ b1 m1 hv hk
  rw [m1, hv] at z1
  have := sumSize_filter_add s.mem (fun a => P (s.mem a)) s.valueList
  show (ks.foldl (LruCache.removeWhen P) s).curCacheSize =
    s.curCacheSize - sumSize s.mem (s.valueList.filter (fun a => P (s.mem a)))
  omega

theorem foldl_ClearPrefixStep (pre : String) (ks : List String) :
    ∀ s : LruCache, s.Consistent →
      ks.foldl (ClearPrefixStep pre) s =
        ks.foldl (LruCache.removeWhen (fun itm => HasPrefix itm.key pre)) s := by
  induction ks with
  | nil => intro s _; rfl
  | cons k ks ih =>
    intro s hI
    rw [List.foldl_cons, List.foldl_cons, ClearPrefixStep_eq_removeWhen pre hI k]
    exact ih _ (removeWhen_step _ hI k).1

theorem foldl_sweepStep (now : Int) (ks : List String) (s : LruCache) :
    ks.foldl (sweepStep now) s =
      ks.foldl (LruCache.removeWhen (MemoryItem.expiredAt now)) s := by
  have : sweepStep now = LruCache.removeWhen (MemoryItem.expiredAt now) := by
    funext s k
    exact sweepStep_eq_removeWhen now s k
  rw [this]

end LruCacheModel

namespace LruCacheModel
open LruCache

/-- C12. `ClearPrefixKeys(pre)` in a cache whose index and recency order are consistent,
with nothing interleaved: the cache it leaves differs from the one it found only in that
the keys having `pre` as a prefix are deleted from the index, their elements are unlinked,
and `curCacheSize` has dropped by the sum of `Size()` over the removed entries.  A key is
indexed afterwards exactly when it was indexed before and does not have the prefix, at
the same element; no item changes and the remaining entries keep their order.  The result
does not depend on the order in which the snapshot lists the keys. -/
theorem ClearPrefixKeys_spec (s : LruCache) (pre : String) (hI : s.Consistent) :
    s.ClearPrefixKeys pre =
      { s with
        curCacheSize := s.curCacheSize -
          sumSize s.mem (s.valueList.filter (fun a => HasPrefix (s.mem a).key pre))
        keyIndex := s.keyIndex.filter (fun p => !HasPrefix p.1 pre)
        valueList := s.valueList.filter (fun a => !HasPrefix (s.mem a).key pre) } ∧
    (∀ keyArr : List String, (∀ k, k ∈ mapKeys s.keyIndex → k ∈ keyArr) →
      keyArr.foldl (ClearPrefixStep pre) s = s.ClearPrefixKeys pre) ∧
    (∀ k e, mapGet (s.ClearPrefixKeys pre).keyIndex k = some e ↔
      mapGet s.keyIndex k = some e ∧ HasPrefix k pre = false) ∧
    (s.ClearPrefixKeys pre).entries = s.entries.filter (fun i => !HasPrefix i.key pre) ∧
    (∀ key, HasPrefix key pre = true ↔ pre.data <+: key.data) ∧
    (s.ClearPrefixKeys pre).Consistent := by
  have hall : ∀ keyArr : List String, (∀ k, k ∈ mapKeys s.keyIndex → k ∈ keyArr) →
      keyArr.foldl (ClearPrefixStep pre) s =
        { s with
          curCacheSize := s.curCacheSize -
            sumSize s.mem (s.valueList.filter (fun a => HasPrefix (s.mem a).key pre))
          keyIndex := s.keyIndex.filter (fun p => !HasPrefix p.1 pre)
          valueList := s.valueList.filter (fun a => !HasPrefix (s.mem a).key pre) } := by
    intro keyArr hks
    rw [foldl_ClearPrefixStep pre keyArr s hI,
      removeWhen_foldl_all (fun itm => HasPrefix itm.key pre) hI keyArr hks]
    have hk : s.keyIndex.filter (fun p => !HasPrefix (s.mem p.2).key pre) =
        s.keyIndex.filter (fun p => !HasPrefix p.1 pre) := by
      apply List.filter_congr
      intro p hp
      rw [(hI.2.2.1 p hp).2]
    rw [hk]
  have hst := hall (mapKeys s.keyIndex) (fun _ h => h)
  have hst' : s.ClearPrefixKeys pre = _ := hst
  refine ⟨hst', ?_, ?_, ?_, ?_, ?_⟩
  · intro keyArr hks
    rw [hall keyArr hks, hst']
  · intro k e
    rw [hst']
    exact (mapGet_filter_iff hI.1 (fun p => !HasPrefix p.1 pre) k e).trans (by simp)
  · rw [hst']
    show (s.valueList.filter (fun a => !HasPrefix (s.mem a).key pre)).map s.mem = _
    unfold LruCache.entries
    rw [List.filter_map]
    rfl
  · intro key
    unfold HasPrefix
    exact List.isPrefixOf_iff_prefix
  · have := (removeWhen_foldl (fun itm => HasPrefix itm.key pre) (mapKeys s.keyIndex)
      s hI).1
    rw [← foldl_ClearPrefixStep pre _ s hI] at this
    exact this

/-- Witness for C12: from the keys a1, a2, b1, clearing the prefix "a" leaves b1 only. -/
theorem ClearPrefixKeys_spec_witness :
    testKeys.Consistent ∧
    mapKeys testKeys.keyIndex = ["a1", "a2", "b1"] ∧
    testKeys.ClearPrefixKeys "a" =
      { testKeys with
        curCacheSize := testKeys.curCacheSize -
          sumSize testKeys.mem
            (testKeys.valueList.filter (fun a => HasPrefix (testKeys.mem a).key "a"))
        keyIndex := testKeys.keyIndex.filter (fun p => !HasPrefix p.1 "a")
        valueList := testKeys.valueList.filter
          (fun a => !HasPrefix (testKeys.mem a).key "a") } ∧
    mapKeys (testKeys.ClearPrefixKeys "a").keyIndex = ["b1"] ∧
    (testKeys.ClearPrefixKeys "a").valueList = [2] :=
  ⟨by decide, by decide, (ClearPrefixKeys_spec testKeys "a" (by decide)).1,
    by decide, by decide⟩

end LruCacheModel

namespace LruCacheModel
open LruCache

theorem expiredAt_iff (now : Int) (itm : MemoryItem) :
    itm.expiredAt now = true ↔ now - itm.lastAccess > itm.expired := by
  simp [MemoryItem.expiredAt]

theorem expiredAt_eq_false_iff (now : Int) (itm : MemoryItem) :
    itm.expiredAt now = false ↔ now - itm.lastAccess ≤ itm.expired := by
  rw [← Bool.not_eq_true, expiredAt_iff, not_lt]

/-- C19. One timer-tick sweep at clock reading `now`, in a cache whose index and recency
order are consistent, with nothing interleaved: the cache it leaves differs from the one
it found only in that the entries with `now - lastAccess > ttl` are deleted from the
index and unlinked, and `curCacheSize` has dropped by the sum of `Size()` over them.  A
key is indexed afterwards exactly when it was indexed before with
`now - lastAccess ≤ ttl`, at the same element; no item changes, the kept entries keep
their order, and no entry left is expired at `now`.  The result does not depend on the
order in which the snapshot lists the keys. -/
theorem sweep_spec (s : LruCache) (now : Int) (hI : s.Consistent) :
    s.sweep now =
      { s with
        curCacheSize := s.curCacheSize -
          sumSize s.mem (s.valueList.filter (fun a => (s.mem a).expiredAt now))
        keyIndex := s.keyIndex.filter (fun p => !(s.mem p.2).expiredAt now)
        valueList := s.valueList.filter (fun a => !(s.mem a).expiredAt now) } ∧
    (∀ keyArr : List String, (∀ k, k ∈ mapKeys s.keyIndex → k ∈ keyArr) →
      keyArr.foldl (sweepStep now) s = s.sweep now) ∧
    (∀ k e, mapGet (s.sweep now).keyIndex k = some e ↔
      mapGet s.keyIndex k = some e ∧ now - (s.mem e).lastAccess ≤ (s.mem e).expired) ∧
    (s.sweep now).entries = s.entries.filter (fun i => !i.expiredAt now) ∧
    (∀ k e, mapGet (s.sweep now).keyIndex k = some e →
      ¬ now - ((s.sweep now).mem e).lastAccess > ((s.sweep now).mem e).expired) ∧
    (∀ itm : MemoryItem, itm.expiredAt now = true ↔ now - itm.lastAccess > itm.expired) ∧
    (s.sweep now).Consistent := by
  have hall : ∀ keyArr : List String, (∀ k, k ∈ mapKeys s.keyIndex → k ∈ keyArr) →
      keyArr.foldl (sweepStep now) s =
        { s with
          curCacheSize := s.curCacheSize -
            sumSize s.mem (s.valueList.filter (fun a => (s.mem a).expiredAt now))
          keyIndex := s.keyIndex.filter (fun p => !(s.mem p.2).expiredAt now)
          valueList := s.valueList.filter (fun a => !(s.mem a).expiredAt now) } := by
    intro keyArr hks
    rw [foldl_sweepStep now keyArr s,
      removeWhen_foldl_all (MemoryItem.expiredAt now) hI keyArr hks]
  have hst : s.sweep now = _ := hall (mapKeys s.keyIndex) (fun _ h => h)
  have hget : ∀ k e, mapGet (s.sweep now).keyIndex k = some e ↔
      mapGet s.keyIndex k = some e ∧ now - (s.mem e).lastAccess ≤ (s.mem e).expired := by
    intro k e
    rw [hst]
    refine (mapGet_filter_iff hI.1 (fun p => !(s.mem p.2).expiredAt now) k e).trans ?_
    simp only [Bool.not_eq_true', expiredAt_eq_false_iff]
  refine ⟨hst, ?_, hget, ?_, ?_, expiredAt_iff now, ?_⟩
  · intro keyArr hks
    rw [hall keyArr hks, hst]
  · rw [hst]
    show (s.valueList.filter (fun a => !(s.mem a).expiredAt now)).map s.mem = _
    unfold LruCache.entries
    rw [List.filter_map]
    rfl
  · intro k e h
    have h2 := ((hget k e).1 h).2
    rw [hst]
    exact not_lt.2 h2
  · have := (removeWhen_foldl (MemoryItem.expiredAt now) (mapKeys s.keyIndex) s hI).1
    rw [← foldl_sweepStep now _ s] at this
    exact this

/-- Witness for C19: with A (ttl 1), B (ttl 10), C (ttl 2) written at time 100, the sweep
at time 105 removes A and C and keeps B. -/
theorem sweep_spec_witness :
    testTtl.Consistent ∧
    testTtl.sweep 105 =
      { testTtl with
        curCacheSize := testTtl.curCacheSize -
          sumSize testTtl.mem
            (testTtl.valueList.filter (fun a => (testTtl.mem a).expiredAt 105))
        keyIndex := testTtl.keyIndex.filter (fun p => !(testTtl.mem p.2).expiredAt 105)
        valueList := testTtl.valueList.filter
          (fun a => !(testTtl.mem a).expiredAt 105) } ∧
    mapKeys (testTtl.sweep 105).keyIndex = ["B"] ∧
    (testTtl.sweep 105).valueList = [1] ∧
    testTtl.curCacheSize = 321 ∧ (testTtl.sweep 105).curCacheSize = 107 :=
  ⟨by decide, (sweep_spec testTtl 105 (by decide)).1, by decide, by decide, by decide,
    by decide⟩

end LruCacheModel

namespace LruCacheModel
open LruCache

/-- C13, as stated, fails on the code: after `Put("k", v, 0)` at time 100 a `Get("k")` at
the same clock reading returns `v`, not nil (and `IsExist` is true). -/
theorem zero_ttl_read_counterexample :
    ((test1.Put "k" (testValue 1000 "v") 0 100).Get "k" 100).1 = testValue 1000 "v" ∧
    testValue 1000 "v" ≠ Value.invalid ∧
    ((test1.Put "k" (testValue 1000 "v") 0 100).IsExist "k" 100).1 = true :=
  ⟨rfl, fun h => Value.noConfusion h, rfl⟩

/-- C13, amended.  After `Put(k, v, 0)` at time `t` the entry is stored; a `Get(k)` while
the clock still reads `t` returns `v` (and `IsExist` is true), and a read at any later
clock reading `t' > t` finds the entry expired: `Get` returns nil and `IsExist` is
false. -/
theorem zero_ttl_semantics (s : LruCache) (k : String) (v : Value) (t t' : Int)
    (h : t < t') :
    (∃ e, mapGet (s.Put k v 0 t).keyIndex k = some e ∧ ((s.Put k v 0 t).mem e).val = v) ∧
    ((s.Put k v 0 t).Get k t).1 = v ∧
    ((s.Put k v 0 t).IsExist k t).1 = true ∧
    ((s.Put k v 0 t).Get k t').1 = Value.invalid ∧
    ((s.Put k v 0 t).IsExist k t').1 = false := by
  obtain ⟨e, he, hv, hl, hx⟩ := Put_lookup s k v 0 t
  rw [if_neg (lt_irrefl 0)] at hx
  have h1 : ¬ t' - t ≤ 0 := by omega
  have h2 : t' - t > 0 := by omega
  refine ⟨⟨e, he, hv⟩, ?_, ?_, ?_, ?_⟩
  · simp [Get, he, hl, hx, hv]
  · simp [IsExist, he, hl, hx]
  · simp [Get, he, hl, hx, h2]
  · simp [IsExist, he, hl, hx, h1]

/-- Witness for the amended C13: written with ttl 0 at time 100, read at 100 and at
101. -/
theorem zero_ttl_semantics_witness :
    ((test1.Put "k" (testValue 1000 "v") 0 100).Get "k" 100).1 = testValue 1000 "v" ∧
    ((test1.Put "k" (testValue 1000 "v") 0 100).Get "k" 101).1 = Value.invalid ∧
    ((test1.Put "k" (testValue 1000 "v") 0 100).IsExist "k" 101).1 = false :=
  ⟨(zero_ttl_semantics test1 "k" (testValue 1000 "v") 100 101 (by decide)).2.1,
   (zero_ttl_semantics test1 "k" (testValue 1000 "v") 100 101 (by decide)).2.2.2.1,
   (zero_ttl_semantics test1 "k" (testValue 1000 "v") 100 101 (by decide)).2.2.2.2⟩

/-- C14 (the code departs from the claim). `Put("k", v, -1)` at time 100 stores
`defaultExpire`, which is `24 * 3600 * 365 * time.Second`, that is 31536000 times
1000000000, and the read paths compare this number with a difference of Unix seconds: the
entry still exists, and `Get` still returns `v`, 31536001 seconds after the write. -/
theorem negative_ttl_default_in_nanoseconds :
    defaultExpire = 31536000 * 1000000000 ∧
    mapGet (test1.Put "k" (testValue 1000 "v") (-1) 100).keyIndex "k" = some 0 ∧
    ((test1.Put "k" (testValue 1000 "v") (-1) 100).mem 0).expired = 31536000000000000 ∧
    ((test1.Put "k" (testValue 1000 "v") (-1) 100).IsExist "k" (100 + 31536001)).1 = true ∧
    ((test1.Put "k" (testValue 1000 "v") (-1) 100).Get "k" (100 + 31536001)).1 =
      testValue 1000 "v" ∧
    testValue 1000 "v" ≠ Value.invalid :=
  ⟨by decide, by decide, by decide, by decide, rfl, fun h => Value.noConfusion h⟩

end LruCacheModel

namespace LruCacheModel
open LruCache

theorem negative_ttl_exists_iff (s : LruCache) (k : String) (v : Value) (ttl t t' : Int)
    (h : ttl < 0) :
    ((s.Put k v ttl t).IsExist k t').1 = true ↔ t' - t ≤ defaultExpire := by
  obtain ⟨e, he, -, hl, hx⟩ := Put_lookup s k v ttl t
  rw [if_pos h] at hx
  simp [IsExist, he, hl, hx]

/-- C15, as stated, fails on the code: with "k" written at time 100 with ttl 5, the
`Get` at time 103 returns the stored value and leaves `lastAccess` at 100, not 103, and a
`Get` at time 106, within 5 seconds of that read, returns nil. -/
theorem Get_keeps_lastAccess_counterexample :
    ((test1.Put "k" (testValue 1000 "v") 5 100).Get "k" 103).1 = testValue 1000 "v" ∧
    testValue 1000 "v" ≠ Value.invalid ∧
    (((test1.Put "k" (testValue 1000 "v") 5 100).Get "k" 103).2.mem 0).lastAccess = 100 ∧
    (((test1.Put "k" (testValue 1000 "v") 5 100).GetEx "k" 103).2.mem 0).lastAccess = 100 ∧
    (((test1.Put "k" (testValue 1000 "v") 5 100).Get "k" 103).2.Get "k" 106).1 =
      Value.invalid :=
  ⟨rfl, fun h => Value.noConfusion h, by decide, by decide, rfl⟩

/-- C15, amended.  When `k` is indexed at element `e` and its entry is not expired at
`now`, `Get(k)` and `GetEx(k)` return the stored value and write no item: `lastAccess`
and `ttl` of the entry are as before.  After the read the entry is live exactly at the
clock readings `t'` with `t' - lastAccess ≤ ttl`, for the `lastAccess` that the last
`Put` or `DelayDelete` wrote. -/
theorem Get_keeps_lastAccess (s : LruCache) (k : String) (now : Int) (e : Nat)
    (he : mapGet s.keyIndex k = some e)
    (hlive : now - (s.mem e).lastAccess ≤ (s.mem e).expired) :
    (s.Get k now).1 = (s.mem e).val ∧
    (s.GetEx k now).1 = ((s.mem e).val, true) ∧
    (s.Get k now).2.mem = s.mem ∧
    (s.GetEx k now).2.mem = s.mem ∧
    mapGet (s.Get k now).2.keyIndex k = some e ∧
    mapGet (s.GetEx k now).2.keyIndex k = some e ∧
    (∀ t', ((s.Get k now).2.IsExist k t').1 = true ↔
      t' - (s.mem e).lastAccess ≤ (s.mem e).expired) ∧
    (∀ t', ((s.GetEx k now).2.IsExist k t').1 = true ↔
      t' - (s.mem e).lastAccess ≤ (s.mem e).expired) := by
  have hn : ¬ now - (s.mem e).lastAccess > (s.mem e).expired := not_lt.2 hlive
  have h1 : (s.Get k now).2 = { s with valueList := MoveToBack s.valueList e } := by
    simp only [Get, he, if_neg hn]
  have h2 : (s.GetEx k now).2 = { s with valueList := MoveToBack s.valueList e } := by
    simp only [GetEx, he, if_neg hn]
  refine ⟨by simp only [Get, he, if_neg hn], by simp only [GetEx, he, if_neg hn],
    by rw [h1], by rw [h2], by rw [h1]; exact he, by rw [h2]; exact he, ?_, ?_⟩
  · intro t'
    rw [h1]
    simp [IsExist, he]
  · intro t'
    rw [h2]
    simp [IsExist, he]

/-- Witness for the amended C15: "k" written at time 100 with ttl 5 and read at 103. -/
theorem Get_keeps_lastAccess_witness :
    mapGet (test1.Put "k" (testValue 1000 "v") 5 100).keyIndex "k" = some 0 ∧
    ((test1.Put "k" (testValue 1000 "v") 5 100).Get "k" 103).2.mem =
      (test1.Put "k" (testValue 1000 "v") 5 100).mem ∧
    (((test1.Put "k" (testValue 1000 "v") 5 100).Get "k" 103).2.IsExist "k" 105).1 = true ∧
    (((test1.Put "k" (testValue 1000 "v") 5 100).Get "k" 103).2.IsExist "k" 106).1 = false :=
  ⟨by decide,
    (Get_keeps_lastAccess (test1.Put "k" (testValue 1000 "v") 5 100) "k" 103 0 (by decide)
      (by decide)).2.2.1,
    ((Get_keeps_lastAccess (test1.Put "k" (testValue 1000 "v") 5 100) "k" 103 0 (by decide)
      (by decide)).2.2.2.2.2.2.1 105).2 (by decide),
    by decide⟩

theorem NewLruCache_low_le_high {name : String} {config : Config} {s : LruCache}
    (h : NewLruCache name config = some s) : s.low ≤ s.high := by
  cases config with
  | empty =>
    cases h
    show defaultLowSize ≤ defaultHighSize
    decide
  | malformed =>
    cases h
    show defaultLowSize ≤ defaultHighSize
    decide
  | object cf =>
    simp only [NewLruCache, setConfig] at h
    split at h
    · exact absurd h (by simp)
    · rename_i hlt
      cases h
      have := not_lt.1 hlt
      split <;> exact this

theorem NewLruCache_default (name : String) :
    ∃ s, NewLruCache name Config.empty = some s ∧ s.low = defaultLowSize ∧
      s.high = defaultHighSize ∧ s.low < s.high :=
  ⟨_, rfl, rfl, rfl, show defaultLowSize < defaultHighSize by decide⟩

/-- C16 (the code departs from the claim). With the configuration text
`{"low": 5, "high": 5}` construction does not fail: `setConfig` panics only when
`high < low`, so the cache is built with `low = high = 5`, which does not satisfy
`low < high`.  With thresholds in the wrong order (`low` 6, `high` 5) construction
fails, and with no text the thresholds are 800 MB and 1 GB. -/
theorem NewLruCache_accepts_equal_thresholds :
    (NewLruCache "c" (Config.object [("low", JsonValue.num 5),
      ("high", JsonValue.num 5)])).map (fun s => (s.low, s.high)) = some (5, 5) ∧
    ¬ ((5 : Int) < 5) ∧
    (NewLruCache "c" (Config.object [("low", JsonValue.num 6),
      ("high", JsonValue.num 5)])).isNone = true ∧
    (NewLruCache "c" Config.empty).map (fun s => (s.low, s.high)) =
      some (838860800, 1073741824) :=
  ⟨by decide, by decide, by decide, by decide⟩

end LruCacheModel

namespace LruCacheModel
open LruCache

/-- C18. Index/order consistency (invariant I1): in every state reachable from a newly
constructed cache by `Put`, `Get`, `GetMulti`, `GetEx`, `Delete`, `DelayDelete`,
`IsExist`, `ClearAll`, `ClearPrefixKeys` (whole, or one removal of its loop), janitor
shrink evictions and janitor sweep removals, the keys of `keyIndex` are the keys of the
items in the recency list, no key and no element occurs twice in the list, the list is as
long as the index, the element that `keyIndex` maps a key to is linked and carries an item
with that key, and every linked element is the one indexed under the key of its item. -/
theorem index_order_consistency (s : LruCache) (h : Reachable s) :
    (∀ k, k ∈ mapKeys s.keyIndex ↔ k ∈ s.entries.map MemoryItem.key) ∧
    (s.entries.map MemoryItem.key).Nodup ∧
    s.valueList.Nodup ∧
    (mapKeys s.keyIndex).Nodup ∧
    s.valueList.length = s.keyIndex.length ∧
    (∀ k e, mapGet s.keyIndex k = some e → e ∈ s.valueList ∧ (s.mem e).key = k) ∧
    (∀ e, e ∈ s.valueList → mapGet s.keyIndex (s.mem e).key = some e) := by
  have hI := (inv_of_reachable h).1
  have hback : ∀ e, e ∈ s.valueList → mapGet s.keyIndex (s.mem e).key = some e :=
    fun e he => mapGet_of_mem hI.1 (hI.2.2.2 e he)
  refine ⟨?_, ?_, hI.2.1, hI.1, ?_, fun k e hk => mem_of_consistent hI hk, hback⟩
  · intro k
    unfold mapKeys LruCache.entries
    rw [List.map_map]
    constructor
    · intro hk
      obtain ⟨p, hp, rfl⟩ := List.mem_map.1 hk
      exact List.mem_map.2 ⟨p.2, (hI.2.2.1 p hp).1, (hI.2.2.1 p hp).2⟩
    · intro hk
      obtain ⟨a, ha, rfl⟩ := List.mem_map.1 hk
      exact List.mem_map.2 ⟨_, hI.2.2.2 a ha, rfl⟩
  · unfold LruCache.entries
    rw [List.map_map]
    apply List.Nodup.map_on _ hI.2.1
    intro a ha b hb hab
    have h1 := hback a ha
    have h2 := hback b hb
    simp only [Function.comp] at hab
    rw [hab, h2] at h1
    exact (Option.some.inj h1).symm
  · have := (index_perm_of_consistent hI).length_eq
    rw [List.length_map] at this
    exact this.symm

/-- Witness for C18: the cache holding A, B, C is reachable (three `Put`s after
construction), and its index and recency list have the same three keys. -/
theorem index_order_consistency_witness :
    Reachable test1ABC ∧
    (∀ k, k ∈ mapKeys test1ABC.keyIndex ↔ k ∈ test1ABC.entries.map MemoryItem.key) ∧
    test1ABC.valueList.length = test1ABC.keyIndex.length ∧
    mapKeys test1ABC.keyIndex = ["A", "B", "C"] :=
  have hr : Reachable test1ABC :=
    Reachable.step _ (Op.put "C" (testValue 1002 "c") 5 100) test1ABC
      (Reachable.step _ (Op.put "B" (testValue 1001 "b") 5 100) _
        (Reachable.step test1 (Op.put "A" (testValue 1000 "a") 5 100) _
          (Reachable.new "test1" test1Config test1 rfl) rfl) rfl) rfl
  ⟨hr, (index_order_consistency test1ABC hr).1,
    (index_order_consistency test1ABC hr).2.2.2.2.1, by decide⟩

theorem shrinkLoop_last (fuel : Nat) :
    ∀ (s : LruCache) (ev : List Nat),
      ((shrinkLoop fuel s ev).evicted = ev ∧
        (shrinkLoop fuel s ev).cache.curCacheSize = s.curCacheSize ∧
        (shrinkLoop fuel s ev).cache.valueList = s.valueList ∧
        (shrinkLoop fuel s ev).cache.keyIndex = s.keyIndex) ∨
      (∃ e, (shrinkLoop fuel s ev).evicted.getLast? = some e ∧
        (shrinkLoop fuel s ev).cache.curCacheSize + (s.mem e).Size > s.low) := by
  induction fuel with
  | zero => intro s ev; exact Or.inl ⟨rfl, rfl, rfl, rfl⟩
  | succ fuel ih =>
    intro s ev
    by_cases h : s.curCacheSize > s.low
    · cases hf : s.valueList with
      | nil =>
        rw [shrinkLoop_panicked fuel ev h hf]
        exact Or.inl ⟨rfl, rfl, hf, rfl⟩
      | cons e t =>
        rw [shrinkLoop_evict fuel ev h hf]
        right
        rcases ih
          { s with
            valueList := t
            curCacheSize := s.curCacheSize - (s.mem e).Size
            keyIndex := mapDelete s.keyIndex (s.mem e).key }
          (ev ++ [e]) with ⟨h1, h2, -, -⟩ | ⟨e', h1, h2⟩
        · refine ⟨e, by rw [h1]; simp, ?_⟩
          rw [h2]
          show s.curCacheSize - (s.mem e).Size + (s.mem e).Size > s.low
          omega
        · exact ⟨e', h1, h2⟩
    · rw [shrinkLoop_done fuel ev h]
      exact Or.inl ⟨rfl, rfl, rfl, rfl⟩

theorem shrinkLoop_minimal (fuel : Nat) :
    ∀ (s : LruCache) (ev : List Nat), ∃ n, n ≤ s.valueList.length ∧
      (shrinkLoop fuel s ev).evicted = ev ++ s.valueList.take n ∧
      (shrinkLoop fuel s ev).cache.curCacheSize =
        s.curCacheSize - sumSize s.mem (s.valueList.take n) ∧
      (∀ m, m < n → s.curCacheSize - sumSize s.mem (s.valueList.take m) > s.low) := by
  induction fuel with
  | zero =>
    intro s ev
    exact ⟨0, Nat.zero_le _, by simp [shrinkLoop_zero], by simp [shrinkLoop_zero, sumSize],
      fun m hm => absurd hm (Nat.not_lt_zero m)⟩
  | succ fuel ih =>
    intro s ev
    by_cases h : s.curCacheSize > s.low
    · cases hf : s.valueList with
      | nil =>
        rw [shrinkLoop_panicked fuel ev h hf]
        exact ⟨0, Nat.zero_le _, by simp, by simp [sumSize],
          fun m hm => absurd hm (Nat.not_lt_zero m)⟩
      | cons e t =>
        rw [shrinkLoop_evict fuel ev h hf]
        obtain ⟨n, hn, h1, h2, h3⟩ := ih
          { s with
            valueList := t
            curCacheSize := s.curCacheSize - (s.mem e).Size
            keyIndex := mapDelete s.keyIndex (s.mem e).key }
          (ev ++ [e])
        refine ⟨n + 1, by simpa using hn, by rw [h1]; simp, ?_, ?_⟩
        · rw [h2]
          simp only [List.take_succ_cons, sumSize, List.map_cons, List.sum_cons]
          ring
        · intro m hm
          cases m with
          | zero => simpa [sumSize] using h
          | succ m =>
            have := h3 m (Nat.lt_of_succ_lt_succ hm)
            simp only [List.take_succ_cons, sumSize, List.map_cons, List.sum_cons] at this ⊢
            omega
    · rw [shrinkLoop_done fuel ev h]
      exact ⟨0, Nat.zero_le _, by simp, by simp [sumSize],
        fun m hm => absurd hm (Nat.not_lt_zero m)⟩

theorem sumSize_take_add_drop (mem : Nat → MemoryItem) (l : List Nat) (m : Nat) :
    sumSize mem (l.take m) + sumSize mem (l.drop m) = sumSize mem l := by
  rw [← sumSize_append, List.take_append_drop]

end LruCacheModel

namespace LruCacheModel
open LruCache

theorem shrinkLoop_run (fuel : Nat) :
    ∀ (s : LruCache) (ev : List Nat), ∃ n, n ≤ s.valueList.length ∧
      (shrinkLoop fuel s ev).evicted = ev ++ s.valueList.take n ∧
      (shrinkLoop fuel s ev).cache.valueList = s.valueList.drop n ∧
      (shrinkLoop fuel s ev).cache.curCacheSize =
        s.curCacheSize - sumSize s.mem (s.valueList.take n) ∧
      (∀ m, m < n → s.curCacheSize - sumSize s.mem (s.valueList.take m) > s.low) ∧
      ((shrinkLoop fuel s ev).status = Status.done →
        (shrinkLoop fuel s ev).cache.curCacheSize ≤ s.low) ∧
      ((shrinkLoop fuel s ev).status = Status.panicked →
        n = s.valueList.length ∧ (shrinkLoop fuel s ev).cache.curCacheSize > s.low) ∧
      (s.valueList.length < fuel →
        (shrinkLoop fuel s ev).status ≠ Status.outOfFuel) := by
  induction fuel with
  | zero =>
    intro s ev
    refine ⟨0, Nat.zero_le _, by simp [shrinkLoop_zero], by simp [shrinkLoop_zero],
      by simp [shrinkLoop_zero, sumSize], fun m hm => absurd hm (Nat.not_lt_zero m),
      by simp [shrinkLoop_zero], by simp [shrinkLoop_zero],
      fun h => absurd h (Nat.not_lt_zero _)⟩
  | succ fuel ih =>
    intro s ev
    by_cases h : s.curCacheSize > s.low
    · cases hf : s.valueList with
      | nil =>
        rw [shrinkLoop_panicked fuel ev h hf]
        refine ⟨0, Nat.zero_le _, by simp, by simp [hf], by simp [sumSize],
          fun m hm => absurd hm (Nat.not_lt_zero m), by simp, ?_, by simp⟩
        intro _
        exact ⟨rfl, h⟩
      | cons e t =>
        rw [shrinkLoop_evict fuel ev h hf]
        obtain ⟨n, hn, h1, h2, h3, h4, h5, h6, h7⟩ := ih
          { s with
            valueList := t
            curCacheSize := s.curCacheSize - (s.mem e).Size
            keyIndex := mapDelete s.keyIndex (s.mem e).key }
          (ev ++ [e])
        dsimp only at hn h1 h2 h3 h4 h5 h6 h7
        refine ⟨n + 1, by simpa using hn, by rw [h1]; simp, by rw [h2]; simp, ?_, ?_,
          h5, ?_, ?_⟩
        · rw [h3]
          simp only [List.take_succ_cons, sumSize, List.map_cons, List.sum_cons]
          ring
        · intro m hm
          cases m with
          | zero => simpa [sumSize] using h
          | succ m =>
            have := h4 m (Nat.lt_of_succ_lt_succ hm)
            simp only [List.take_succ_cons, sumSize, List.map_cons, List.sum_cons] at this ⊢
            omega
        · intro hp
          obtain ⟨hnl, hc⟩ := h6 hp
          exact ⟨by simp [hnl], hc⟩
        · intro hlen
          apply h7
          simpa using hlen
    · rw [shrinkLoop_done fuel ev h]
      refine ⟨0, Nat.zero_le _, by simp, by simp, by simp [sumSize],
        fun m hm => absurd hm (Nat.not_lt_zero m), fun _ => not_lt.1 h, by simp, by simp⟩

/-- C20. Shrink hysteresis bound, in a cache whose running size is the sum of the sizes
of its entries.  If the running size is already at most `low`, a shrink evicts nothing
and leaves size, recency order and index as they were.  In general the shrink evicts the
first `n` entries of the recency order and leaves the rest, where `n` is the fewest that
reach the watermark: the entries left sum to at most `low`, while after evicting only
`m < n` of them the entries left would still sum to more than `low` (so `n ≤ m` for
every `m` that reaches it).  The only other way the run can end is with the whole list
evicted and the size still above `low`, which needs `low < 0`; with `0 ≤ low` the run
ends at its `break` with the running size at most `low`.  In particular the running size
just before the last eviction exceeded `low`: the final running size plus the `Size()`
of the last evicted entry is more than `low`. -/
theorem shrink_hysteresis (s : LruCache) (hS : s.SizeExact) :
    (s.curCacheSize ≤ s.low →
      s.shrink.evicted = [] ∧ s.shrink.cache.curCacheSize = s.curCacheSize ∧
      s.shrink.cache.valueList = s.valueList ∧ s.shrink.cache.keyIndex = s.keyIndex) ∧
    (∀ e, s.shrink.evicted.getLast? = some e →
      s.shrink.cache.curCacheSize + (s.mem e).Size > s.low) ∧
    (∃ n, n ≤ s.valueList.length ∧
      s.shrink.evicted = s.valueList.take n ∧
      s.shrink.cache.valueList = s.valueList.drop n ∧
      s.shrink.cache.curCacheSize = s.curCacheSize - sumSize s.mem (s.valueList.take n) ∧
      s.shrink.cache.curCacheSize = sumSize s.mem (s.valueList.drop n) ∧
      (∀ m, m < n → sumSize s.mem (s.valueList.drop m) > s.low) ∧
      (∀ m, sumSize s.mem (s.valueList.drop m) ≤ s.low → n ≤ m) ∧
      ((s.shrink.status = Status.done ∧ sumSize s.mem (s.valueList.drop n) ≤ s.low) ∨
        (s.shrink.status = Status.panicked ∧ n = s.valueList.length ∧
          s.shrink.cache.valueList = [] ∧ s.low < 0))) ∧
    (0 ≤ s.low → s.shrink.status = Status.done ∧ s.shrink.cache.curCacheSize ≤ s.low) := by
  have hsz : s.curCacheSize = sumSize s.mem s.valueList := hS
  obtain ⟨n, hn, h1, h2, h3, h4, h5, h6, h7⟩ :=
    shrinkLoop_run (s.valueList.length + 1) { s with chShrinkCache := false } []
  dsimp only at hn h1 h2 h3 h4 h5 h6 h7
  rw [List.nil_append] at h1
  have hfuel := h7 (Nat.lt_succ_self _)
  have hdrop : ∀ m, s.curCacheSize - sumSize s.mem (s.valueList.take m) =
      sumSize s.mem (s.valueList.drop m) := by
    intro m
    have := sumSize_take_add_drop s.mem s.valueList m
    omega
  have hcur : s.shrink.cache.curCacheSize = sumSize s.mem (s.valueList.drop n) := by
    show (shrinkLoop (s.valueList.length + 1) { s with chShrinkCache := false }
      []).cache.curCacheSize = _
    rw [h3, hdrop]
  have hmin : ∀ m, m < n → sumSize s.mem (s.valueList.drop m) > s.low := by
    intro m hm
    rw [← hdrop]
    exact h4 m hm
  have hcases : (s.shrink.status = Status.done ∧
        sumSize s.mem (s.valueList.drop n) ≤ s.low) ∨
      (s.shrink.status = Status.panicked ∧ n = s.valueList.length ∧
        s.shrink.cache.valueList = [] ∧ s.low < 0) := by
    cases hst : s.shrink.status with
    | done =>
      left
      refine ⟨rfl, ?_⟩
      rw [← hcur]
      exact h5 hst
    | panicked =>
      right
      obtain ⟨hnl, hc⟩ := h6 hst
      have hnil : s.shrink.cache.valueList = [] := by
        show (shrinkLoop (s.valueList.length + 1) { s with chShrinkCache := false }
          []).cache.valueList = []
        rw [h2, hnl, List.drop_length]
      refine ⟨rfl, hnl, hnil, ?_⟩
      have h0 : s.shrink.cache.curCacheSize = 0 := by
        rw [hcur, hnl, List.drop_length]
        rfl
      have hc' : s.shrink.cache.curCacheSize > s.low := hc
      omega
    | outOfFuel => exact absurd hst hfuel
  refine ⟨?_, ?_, ⟨n, hn, h1, h2, h3, hcur, hmin, ?_, hcases⟩, ?_⟩
  · intro hle
    have hnot : ¬ ({ s with chShrinkCache := false } : LruCache).curCacheSize >
        ({ s with chShrinkCache := false } : LruCache).low := not_lt.2 hle
    unfold shrink
    rw [shrinkLoop_done s.valueList.length [] hnot]
    exact ⟨rfl, rfl, rfl, rfl⟩
  · intro e he
    rcases shrinkLoop_last (s.valueList.length + 1) { s with chShrinkCache := false } []
      with ⟨g1, -⟩ | ⟨e', g1, g2⟩
    · unfold shrink at he
      rw [g1] at he
      simp at he
    · have hee : e' = e := by
        unfold shrink at he
        rw [g1] at he
        exact Option.some.inj he
      rw [← hee]
      exact g2
  · intro m hm
    by_contra hlt
    have := hmin m (not_le.1 hlt)
    omega
  · intro hlow
    rcases hcases with ⟨hd, hle⟩ | ⟨-, -, -, hneg⟩
    · exact ⟨hd, by rw [hcur]; exact hle⟩
    · omega

/-- Witness for C20: the cache holding A, B, C (321 bytes, low watermark 200) evicts A
and B and ends at the `break` with 107 bytes; before the eviction of B it held 214
bytes. -/
theorem shrink_hysteresis_witness :
    test1ABC.SizeExact ∧
    test1ABC.shrink.evicted = [0, 1] ∧
    test1ABC.shrink.cache.curCacheSize + (test1ABC.mem 1).Size > test1ABC.low ∧
    (test1ABC.shrink.status = Status.done ∧
      test1ABC.shrink.cache.curCacheSize ≤ test1ABC.low) ∧
    test1ABC.shrink.cache.curCacheSize = 107 ∧ (test1ABC.mem 1).Size = 107 ∧
    test1ABC.low = 200 :=
  ⟨by decide, by decide,
    (shrink_hysteresis test1ABC (by decide)).2.1 1 (by decide),
    (shrink_hysteresis test1ABC (by decide)).2.2.2 (by decide),
    by decide, by decide, by decide⟩

end LruCacheModel

namespace LruCacheModel
open LruCache

theorem Process.step_eq_none_of_waiting {p : Process} (hd : p.destroy = DestroyAt.waiting)
    (hw : p.waitGroup ≠ 0)
    (hj : p.janitor = JanitorAt.shrinkRead ∨ p.janitor = JanitorAt.shrinkIter ∨
      p.janitor = JanitorAt.sweepSnapshot ∨
      ∃ key keyArr, p.janitor = JanitorAt.sweepIter (key :: keyArr)) :
    ∀ ev, p.step ev = none := by
  have hsel : p.janitor ≠ JanitorAt.select := by
    rcases hj with h | h | h | ⟨k, ks, h⟩ <;> rw [h] <;> simp
  have hend : p.janitor ≠ JanitorAt.sweepIter [] := by
    rcases hj with h | h | h | ⟨k, ks, h⟩ <;> rw [h] <;> simp
  intro ev
  cases ev with
  | call op => simp [Process.step, hd]
  | recvShrink => simp [Process.step, hsel]
  | recvTick => simp [Process.step, hsel]
  | recvShutdown => simp [Process.step, hsel]
  | janitorStep now => simp [Process.step, hend, hd]
  | destroyCall => simp [Process.step, hd]
  | destroyReturn => simp [Process.step, hw]

theorem Process.run_eq_none_of_stuck {p : Process} (h : ∀ ev, p.step ev = none) :
    ∀ evs, evs ≠ [] → p.run evs = none := by
  intro evs hne
  cases evs with
  | nil => exact absurd rfl hne
  | cons ev evs => simp [Process.run, h ev]

/-- C17 (the code departs from the claim). Three runs of the process built on the
cache of `TestCache1`.  (1) The timer fires and the janitor takes the tick, so that it
stands before the `Lock` of its sweep; then `Destroy` is called: it takes the mutex,
closes `chCacheExit` and blocks in `waitGroup.Wait()`.  In the state reached no event
can take place, so no continuation exists: `Destroy` does not return and the janitor
does not terminate.  (2) The same after four `Put`s that raise the shrink signal and a
janitor that has taken it.  (3) When the janitor is in `select` and sees the closed
channel first, `Destroy` returns with the janitor gone and the field nil, and a second
`Destroy` then changes nothing. -/
theorem Destroy_blocks_janitor_in_loop :
    (∃ p, (Process.start test1).run [Event.recvTick, Event.destroyCall] = some p ∧
      p.destroy = DestroyAt.waiting ∧ p.janitor = JanitorAt.sweepSnapshot ∧
      p.chCacheExit = some true ∧ p.waitGroup = 1 ∧
      (∀ ev, p.step ev = none) ∧ (∀ evs, evs ≠ [] → p.run evs = none)) ∧
    (∃ p, (Process.start test1).run
        [Event.call (Op.put "A" (testValue 1000 "a") 5 100),
         Event.call (Op.put "B" (testValue 1001 "b") 5 100),
         Event.call (Op.put "C" (testValue 1002 "c") 5 100),
         Event.call (Op.put "D" (testValue 1003 "d") 5 100),
         Event.recvShrink, Event.destroyCall] = some p ∧
      p.destroy = DestroyAt.waiting ∧ p.janitor = JanitorAt.shrinkRead ∧
      p.chCacheExit = some true ∧ p.waitGroup = 1 ∧
      (∀ ev, p.step ev = none) ∧ (∀ evs, evs ≠ [] → p.run evs = none)) ∧
    (∃ p, (Process.start test1).run
        [Event.destroyCall, Event.recvShutdown, Event.destroyReturn] = some p ∧
      p.destroy = DestroyAt.returned ∧ p.janitor = JanitorAt.returned ∧
      p.chCacheExit = none ∧ p.waitGroup = 0 ∧
      p.step Event.destroyCall = some p) := by
  refine ⟨?_, ?_, ?_⟩
  · have hstuck := @Process.step_eq_none_of_waiting
      { Process.start test1 with
        janitor := JanitorAt.sweepSnapshot
        chCacheExit := some true
        destroy := DestroyAt.waiting }
      rfl (by decide) (Or.inr (Or.inr (Or.inl rfl)))
    exact ⟨_, rfl, rfl, rfl, rfl, rfl, hstuck, Process.run_eq_none_of_stuck hstuck⟩
  · have hstuck := @Process.step_eq_none_of_waiting
      { Process.start { test1Full with chShrinkCache := false } with
        janitor := JanitorAt.shrinkRead
        chCacheExit := some true
        destroy := DestroyAt.waiting }
      rfl (by decide) (Or.inl rfl)
    exact ⟨_, rfl, rfl, rfl, rfl, rfl, hstuck, Process.run_eq_none_of_stuck hstuck⟩
  · exact ⟨_, rfl, rfl, rfl, rfl, rfl, rfl⟩

end LruCacheModel
